import Mathlib

/-!
Verification development for the `quad` adaptive Gauss–Kronrod integration
library.  The Rust sources are embedded shallowly:

* `f64` values are idealised as exact rationals `ℚ` (the spec's "exact real
  arithmetic over the embedded operations"); the only genuinely irrational
  operations (`sqrt`, `powf` inside the rule evaluator `Qk61VecNorm2` and
  `norm_vec`) are embedded over `ℝ`, respectively abstracted as a parameter.
* `Vec<f64>` becomes `List ℚ`; in the engines every vector in play has length
  `n = f(0.0).len()`, and the element-wise loops of `add_res`, `add_vec`,
  `sub_vec`, `res_update` are embedded as (truncating) `zipWith`s, which agree
  with the source on the equal-length vectors the engine actually produces.
* `BinaryHeap<HeapItem>` (a max-heap ordered by `err`) becomes a `List HeapItem`
  together with `popMax`, which removes one maximal-`err` element (the first
  such element; which maximal element the Rust heap pops among ties is
  unspecified).
* `HashMap<(Myf64, Myf64), Vec<f64>>` becomes an association list with
  overwrite-on-insert semantics.  `Myf64` keys compare by `to_bits`, which on
  the idealised (finite, non-`-0.0`) values is plain equality on `ℚ`.
* The Gauss–Kronrod rule functions `qk15_quadrature` … `qk61_quadrature`
  (whose shared implementation `qk.rs` is not among the given sources) are a
  parameter `qk : ℤ → ℚ → ℚ → List ℚ × ℚ × ℚ` of the engine model, indexed by
  the clamped key; `norm_vec` (which takes a square root) is a parameter
  `nv : List ℚ → ℚ`.  All engine-level claims are settled uniformly in these
  parameters.
* Rust `panic!` (the `unwrap` of a missing cache entry) and non-termination
  are made visible as the extra outcomes `cacheMiss` and `outOfFuel` of the
  engine model; the refinement loop is run with fuel `limit`, which dominates
  the source loop bound `last < limit` since `last` grows by at least one per
  iteration whenever work is done.
-/

namespace Quad

/-- `EPMACH` from `constants.rs`: `f64::EPSILON = 2⁻⁵²`. -/
def EPMACH : ℚ := 1 / 2 ^ 52

/-- `UFLOW` from `constants.rs`: `f64::MIN_POSITIVE = 2⁻¹⁰²²`. -/
def UFLOW : ℚ := 1 / 2 ^ 1022

/-- `add_res` from `constants.rs`: `v[k] += w[k]` for `k < v.len()`. -/
def add_res (v w : List ℚ) : List ℚ := List.zipWith (fun x y => x + y) v w

/-- `add_vec` from `qag_par.rs`: `a[k] += b[k]` for `k < a.len()`. -/
def add_vec (a b : List ℚ) : List ℚ := List.zipWith (fun x y => x + y) a b

/-- `sub_vec` from `qag_par.rs`: `a[k] -= b[k]` for `k < a.len()`. -/
def sub_vec (a b : List ℚ) : List ℚ := List.zipWith (fun x y => x - y) a b

/-- `res_update` from `constants.rs`: `v[k] += w[k] + z[k] - y[k]`. -/
def res_update : List ℚ → List ℚ → List ℚ → List ℚ → List ℚ
  | v :: vs, w :: ws, z :: zs, y :: ys => (v + w + z - y) :: res_update vs ws zs ys
  | _, _, _, _ => []

/-- `vec![0.0; n]`. -/
def zeros (n : ℕ) : List ℚ := List.replicate n 0

/-- Component-wise sum of a list of vectors (all of length `n`). -/
def vsum (n : ℕ) : List (List ℚ) → List ℚ
  | [] => zeros n
  | v :: vs => add_res (vsum n vs) v

/-- `f64::signum` on the idealised values: `1` for nonnegative (Rust returns
`1.0` on `+0.0`), `-1` for negative. -/
def rustSignum (x : ℚ) : ℚ := if x < 0 then -1 else 1

/-- An `f64` endpoint of the original integration range: finite, `+∞`, `-∞`. -/
inductive F64 where
  | fin (x : ℚ)
  | pinf
  | ninf
deriving DecidableEq

/-- `points_transformed` from `constants.rs`: sorts the breakpoints and maps
them according to which endpoints are infinite (`1/(p-a+1)`, `1/(b-p+1)`,
`p.signum()/(p.abs()+1)`); any other endpoint combination leaves the output
vector empty. -/
def points_transformed (points : List ℚ) (a b : F64) : List ℚ :=
  let pts := List.insertionSort (fun x y => x ≤ y) points
  match a, b with
  | F64.fin aq, F64.pinf => pts.map (fun p => 1 / (p - aq + 1))
  | F64.ninf, F64.fin bq => pts.map (fun p => 1 / (bq - p + 1))
  | F64.ninf, F64.pinf => pts.map (fun p => rustSignum p / (|p| + 1))
  | _, _ => []

/-- `HeapItem` from `constants.rs`. -/
structure HeapItem where
  iv : ℚ × ℚ
  err : ℚ
deriving DecidableEq

/-- `BinaryHeap::pop`: remove a maximal-`err` element (the first one). -/
def popMax : List HeapItem → Option (HeapItem × List HeapItem)
  | [] => none
  | x :: xs =>
    match popMax xs with
    | none => some (x, [])
    | some (m, rest) => if x.err < m.err then some (m, x :: rest) else some (x, xs)

/-- The interval cache, `HashMap<(Myf64, Myf64), Vec<f64>>`. -/
abbrev Cache := List ((ℚ × ℚ) × List ℚ)

/-- Cache lookup. -/
def cacheGet : Cache → (ℚ × ℚ) → Option (List ℚ)
  | [], _ => none
  | e :: c, k => if e.1 = k then some e.2 else cacheGet c k

/-- Delete every entry with the given key. -/
def cacheErase : Cache → (ℚ × ℚ) → Cache
  | [], _ => []
  | e :: c, k => if e.1 = k then cacheErase c k else e :: cacheErase c k

/-- `HashMap::insert` (overwrites any previous binding of the key). -/
def cacheInsert (c : Cache) (k : ℚ × ℚ) (v : List ℚ) : Cache :=
  (k, v) :: cacheErase c k

/-- `HashMap::remove`: the stored value and the map without the key, or
`none` when the key is absent (the source `unwrap`s this). -/
def cacheRemove (c : Cache) (k : ℚ × ℚ) : Option (List ℚ × Cache) :=
  match cacheGet c k with
  | none => none
  | some v => some (v, cacheErase c k)

/-- `ResultState` from `result_state.rs` (mirrored from the doc comments of
`qag.rs` and the `match` in `qag_1dvec_integrator_result.rs`). -/
inductive ResultState where
  | Success
  | Failure
  | MaxIteration
  | Invalid
  | BadTolerance
  | BadFunction
  | Diverge
deriving DecidableEq

/-- The diagnostics carried by `QagIntegratorResult::new_more_info`. -/
structure MoreInfo where
  neval : ℤ
  last : ℕ
  cache : Cache
  heap : List HeapItem
deriving DecidableEq

/-- Outcome of `qintegrate`.  `cacheMiss` is the `unwrap` panic on a missing
cache entry; `outOfFuel` marks fuel exhaustion of the loop model. -/
inductive QRes where
  | success (result : List ℚ) (abserr : ℚ) (info : Option MoreInfo)
  | failure (state : ResultState)
  | cacheMiss
  | outOfFuel
deriving DecidableEq

/-- The data every engine run is parametrised by: the rule evaluators, the
norm, the clamped key, the vector dimension `n = f(0.0).len()`, and the
remaining `Qag` fields. -/
structure Ctx where
  qk : ℤ → ℚ → ℚ → List ℚ × ℚ × ℚ
  nv : List ℚ → ℚ
  keyf : ℤ
  n : ℕ
  limit : ℕ
  epsabs : ℚ
  epsrel : ℚ
  moreInfo : Bool

/-- The `match keyf { 1..=6 => qkXX_quadrature, _ => (vec![0.0; n], 0.0, 0.0) }`
dispatch common to both engines. -/
def ruleEval (c : Ctx) (x y : ℚ) : List ℚ × ℚ × ℚ :=
  if 1 ≤ c.keyf ∧ c.keyf ≤ 6 then c.qk c.keyf x y else (zeros c.n, 0, 0)

/-- Result vector of the selected rule on an interval. -/
def rres (c : Ctx) (x y : ℚ) : List ℚ := (ruleEval c x y).1

/-- `abserr` of the selected rule on an interval. -/
def rerr (c : Ctx) (x y : ℚ) : ℚ := (ruleEval c x y).2.1

/-- `rounderr` of the selected rule on an interval. -/
def rrnd (c : Ctx) (x y : ℚ) : ℚ := (ruleEval c x y).2.2

/-- Mutable state of the sequential refinement loop. -/
structure LoopSt where
  result : List ℚ
  abserr : ℚ
  rounderr : ℚ
  last : ℕ
  errbnd : ℚ
  heap : List HeapItem
  cache : Cache
deriving DecidableEq

/-- The `for p in points` body of the initial partitioning: emit `(prev, p)`
for in-range breakpoints, finally `(prev, b)`. -/
def initialIntervalsGo (a b : ℚ) : ℚ → List ℚ → List (ℚ × ℚ)
  | prev, [] => [(prev, b)]
  | prev, p :: ps =>
    if a < p ∧ p < b then (prev, p) :: initialIntervalsGo a b p ps
    else initialIntervalsGo a b prev ps

/-- The initial partition of `qintegrate` (both engines): sort the points,
then cut `(a, b)` at every point lying strictly inside. -/
def initialIntervals (a b : ℚ) (points : List ℚ) : List (ℚ × ℚ) :=
  let pts := List.insertionSort (fun x y => x ≤ y) points
  if pts.isEmpty then [(a, b)] else initialIntervalsGo a b a pts

/-- One iteration of the `for comp in initial_intervals` loop: evaluate the
rule, accumulate into `result`/`abserr`/`rounderr`, push and cache. -/
def initSeg (c : Ctx) (st : LoopSt) (seg : ℚ × ℚ) : LoopSt :=
  { st with
    result := add_res st.result (rres c seg.1 seg.2)
    abserr := st.abserr + rerr c seg.1 seg.2
    rounderr := st.rounderr + rrnd c seg.1 seg.2
    heap := st.heap ++ [⟨seg, rerr c seg.1 seg.2⟩]
    cache := cacheInsert st.cache seg (rres c seg.1 seg.2) }

/-- State after the initial-partition loop (`last` starts — and stays — at 1,
`errbnd` not yet computed). -/
def initState (c : Ctx) (a b : ℚ) (points : List ℚ) : LoopSt :=
  (initialIntervals a b points).foldl (initSeg c)
    { result := zeros c.n, abserr := 0, rounderr := 0, last := 1, errbnd := 0,
      heap := [], cache := [] }

/-- State after the initial partitioning together with the first
`errbnd = epsabs.max(epsrel * norm_vec(&result))`. -/
def initLoopState (c : Ctx) (a b : ℚ) (points : List ℚ) : LoopSt :=
  let st := initState c a b points
  { st with errbnd := max c.epsabs (c.epsrel * c.nv st.result) }

/-- One entry of the sequential engine's `to_process`:
`(x, y, old_err, old_res)`. -/
structure Popped where
  x : ℚ
  y : ℚ
  err : ℚ
  res : List ℚ
deriving DecidableEq

/-- The sequential batch-pop loop
(`while to_process.len() < 128 && heap.len() != 0`); the fuel argument counts
the remaining capacity `128 - to_process.len()`.  `none` is the `unwrap`
panic on a missing cache entry. -/
def batchPopGo : ℕ → List HeapItem → Cache → ℚ → ℚ → ℚ → List Popped →
    Option (List Popped × List HeapItem × Cache × ℚ)
  | 0, heap, cache, _, _, errSum, acc => some (acc, heap, cache, errSum)
  | Nat.succ k, heap, cache, abserr, errbnd, errSum, acc =>
    match popMax heap with
    | none => some (acc, heap, cache, errSum)
    | some (it, heap2) =>
      match cacheRemove cache it.iv with
      | none => none
      | some (oldRes, cache2) =>
        let errSum2 := errSum + it.err
        let acc2 := acc ++ [⟨it.iv.1, it.iv.2, it.err, oldRes⟩]
        if abserr - errbnd / 8 < errSum2 then some (acc2, heap2, cache2, errSum2)
        else batchPopGo k heap2 cache2 abserr errbnd errSum2 acc2

/-- Pop one batch from the state of the sequential engine. -/
def batchPopSeq (st : LoopSt) : Option (List Popped × List HeapItem × Cache × ℚ) :=
  batchPopGo 128 st.heap st.cache st.abserr st.errbnd 0 []

/-- Body of `for comp in to_process` in the sequential engine: bisect, run the
rule on both halves, push/cache them, update the accumulators. -/
def processOne (c : Ctx) (st : LoopSt) (p : Popped) : LoopSt :=
  let a1 := p.x
  let b1 := (p.x + p.y) / 2
  let a2 := b1
  let b2 := p.y
  { st with
    last := st.last + 1
    result := res_update st.result (rres c a1 b1) (rres c a2 b2) p.res
    cache := cacheInsert (cacheInsert st.cache (a1, b1) (rres c a1 b1)) (a2, b2) (rres c a2 b2)
    heap := st.heap ++ [⟨(a1, b1), rerr c a1 b1⟩, ⟨(a2, b2), rerr c a2 b2⟩]
    abserr := st.abserr - p.err + rerr c a1 b1 + rerr c a2 b2
    rounderr := st.rounderr + rrnd c a1 b1 + rrnd c a2 b2 }

/-- The whole `for comp in to_process` loop. -/
def processComps (c : Ctx) (st : LoopSt) (tp : List Popped) : LoopSt :=
  tp.foldl (processOne c) st

/-- What one iteration of the sequential refinement loop does: return from
the function, `break` out of the loop, or continue with a new state. -/
inductive StepOut where
  | ret (r : QRes)
  | brk (st : LoopSt)
  | cont (st : LoopSt)
deriving DecidableEq

/-- One full iteration of the sequential `while last < limit` body: batch-pop,
process, recompute `errbnd`, test `abserr <= errbnd / 8` (break) and
`abserr < rounderr` (`BadTolerance`). -/
def iterStepSeq (c : Ctx) (st : LoopSt) : StepOut :=
  match batchPopSeq st with
  | none => StepOut.ret QRes.cacheMiss
  | some (tp, heap2, cache2, _errSum) =>
    let st1 := processComps c { st with heap := heap2, cache := cache2 } tp
    let errbnd2 := max c.epsabs (c.epsrel * c.nv st1.result)
    let st2 := { st1 with errbnd := errbnd2 }
    if st2.abserr ≤ errbnd2 / 8 then StepOut.brk st2
    else if st2.abserr < st2.rounderr then StepOut.ret (QRes.failure ResultState.BadTolerance)
    else StepOut.cont st2

/-- The `neval` computation at the exits:
`30*last + 15` for `keyf == 1`, else `(10*keyf + 1)*(2*last - 1)`. -/
def nevalCalc (keyf : ℤ) (last : ℕ) : ℤ :=
  if keyf = 1 then 30 * (last : ℤ) + 15 else (10 * keyf + 1) * (2 * (last : ℤ) - 1)

/-- The success return (`new_more_info` when `more_info`, else `new`), with
`abserr = abserr + rounderr` and `neval` from `keyf` and `last`. -/
def successPayload (c : Ctx) (result : List ℚ) (abserr rounderr : ℚ) (last : ℕ)
    (cache : Cache) (heap : List HeapItem) : QRes :=
  if c.moreInfo then
    QRes.success result (abserr + rounderr)
      (some ⟨nevalCalc c.keyf last, last, cache, heap⟩)
  else QRes.success result (abserr + rounderr) none

/-- Code below the sequential refinement loop: `MaxIteration` whenever
`last >= limit` (even after a successful `break`), else the success payload. -/
def afterLoopSeq (c : Ctx) (st : LoopSt) : QRes :=
  if c.limit ≤ st.last then QRes.failure ResultState.MaxIteration
  else successPayload c st.result st.abserr st.rounderr st.last st.cache st.heap

/-- The sequential `while last < limit` loop, with fuel. -/
def mainLoopSeq (c : Ctx) : ℕ → LoopSt → QRes
  | 0, _ => QRes.outOfFuel
  | Nat.succ fuel, st =>
    if st.last < c.limit then
      match iterStepSeq c st with
      | StepOut.ret r => r
      | StepOut.brk st2 => afterLoopSeq c st2
      | StepOut.cont st2 => mainLoopSeq c fuel st2
    else afterLoopSeq c st

/-- The `Qag` struct from `qag.rs`. -/
structure Qag where
  key : ℤ
  limit : ℕ
  points : List ℚ
  more_info : Bool

/-- Key clamping: `key <= 0 → 1`, `key >= 7 → 6`. -/
def clampKey (key : ℤ) : ℤ := if key ≤ 0 then 1 else if 7 ≤ key then 6 else key

/-- Build the run context for `self` and dimension `n = f(0.0).len()`. -/
def mkCtx (qk : ℤ → ℚ → ℚ → List ℚ × ℚ × ℚ) (nv : List ℚ → ℚ) (key : ℤ)
    (limit : ℕ) (moreInfo : Bool) (n : ℕ) (epsabs epsrel : ℚ) : Ctx :=
  { qk := qk, nv := nv, keyf := clampKey key, n := n, limit := limit,
    epsabs := epsabs, epsrel := epsrel, moreInfo := moreInfo }

/-- `Qag::qintegrate` from `qag.rs` (the vector dimension
`n = f(0.0).len()` is passed explicitly; `qintegrateF` below derives it). -/
def qintegrate (qk : ℤ → ℚ → ℚ → List ℚ × ℚ × ℚ) (nv : List ℚ → ℚ) (self : Qag)
    (n : ℕ) (a b epsabs epsrel : ℚ) : QRes :=
  if epsabs ≤ 0 ∧ epsrel < max (5 / 10 ^ 29) (50 * EPMACH) then
    QRes.failure ResultState.Invalid
  else
    let c := mkCtx qk nv self.key self.limit self.more_info n epsabs epsrel
    let st := initLoopState c a b self.points
    if st.abserr + st.rounderr ≤ st.errbnd then
      successPayload c st.result st.abserr st.rounderr st.last st.cache st.heap
    else if self.limit = 1 then QRes.failure ResultState.MaxIteration
    else if st.abserr < st.rounderr then QRes.failure ResultState.BadTolerance
    else mainLoopSeq c self.limit st

/-- `Qag::qintegrate` with the dimension obtained from the integrand:
`let n = f(0.0).len()`. -/
def qintegrateF (qk : ℤ → ℚ → ℚ → List ℚ × ℚ × ℚ) (nv : List ℚ → ℚ) (self : Qag)
    (f : ℚ → List ℚ) (a b epsabs epsrel : ℚ) : QRes :=
  qintegrate qk nv self (f 0).length a b epsabs epsrel

/-- Mutable state of the parallel refinement loop (the sequential state plus
the stagnation counters `iroff1`, `iroff2`). -/
structure ParSt where
  result : List ℚ
  abserr : ℚ
  rounderr : ℚ
  last : ℕ
  errbnd : ℚ
  heap : List HeapItem
  cache : Cache
  iroff1 : ℕ
  iroff2 : ℕ
deriving DecidableEq

/-- The parallel engine's singularity guard, exactly the triggering condition
of its `BadFunction` return:
`x.abs().max(y.abs()) <= (1 + 100*EPMACH) * (((x+y)/2).abs() + 1000*UFLOW)`. -/
def badGuard (x y : ℚ) : Prop :=
  max |x| |y| ≤ (1 + 100 * EPMACH) * (|(x + y) / 2| + 1000 * UFLOW)

instance (x y : ℚ) : Decidable (badGuard x y) := by unfold badGuard; infer_instance

/-- Outcome of the parallel batch-pop loop: `unwrap` panic, `BadFunction`
return, or the popped batch (keys, remaining heap and cache, `err_sum`,
`old_result`). -/
inductive ParPop where
  | miss
  | bad
  | ok (tp : List (ℚ × ℚ)) (heap : List HeapItem) (cache : Cache) (errSum : ℚ)
      (oldRes : List ℚ)
deriving DecidableEq

/-- The parallel batch-pop loop, with the per-pop singularity guard checked
before the cache removal (as in the source). -/
def batchPopParGo : ℕ → List HeapItem → Cache → ℚ → ℚ → ℚ → List (ℚ × ℚ) →
    List ℚ → ParPop
  | 0, heap, cache, _, _, errSum, tp, oldRes => ParPop.ok tp heap cache errSum oldRes
  | Nat.succ k, heap, cache, abserr, errbnd, errSum, tp, oldRes =>
    match popMax heap with
    | none => ParPop.ok tp heap cache errSum oldRes
    | some (it, heap2) =>
      if badGuard it.iv.1 it.iv.2 then ParPop.bad
      else
        match cacheRemove cache it.iv with
        | none => ParPop.miss
        | some (oldv, cache2) =>
          let errSum2 := errSum + it.err
          let oldRes2 := add_vec oldRes oldv
          let tp2 := tp ++ [it.iv]
          if abserr - errbnd / 8 < errSum2 then ParPop.ok tp2 heap2 cache2 errSum2 oldRes2
          else batchPopParGo k heap2 cache2 abserr errbnd errSum2 tp2 oldRes2

/-- Pop one batch from the state of the parallel engine. -/
def batchPopPar (n : ℕ) (st : ParSt) : ParPop :=
  batchPopParGo 128 st.heap st.cache st.abserr st.errbnd 0 [] (zeros n)

/-- The data one worker returns for one half-interval:
`(aᵢ, bᵢ, resultᵢ, abserrᵢ, rounderrᵢ)`. -/
structure Half where
  lo : ℚ
  hi : ℚ
  res : List ℚ
  err : ℚ
  rnd : ℚ
deriving DecidableEq

/-- One worker's job: bisect `comp` and evaluate the rule on both halves. -/
def halfEval (c : Ctx) (p : ℚ × ℚ) : Half × Half :=
  let a1 := p.1
  let b1 := (p.1 + p.2) / 2
  (⟨a1, b1, rres c a1 b1, rerr c a1 b1, rrnd c a1 b1⟩,
   ⟨b1, p.2, rres c b1 p.2, rerr c b1 p.2, rrnd c b1 p.2⟩)

/-- The parallel map over the worklist (order-preserving, as `par_iter().map`
followed by `collect`). -/
def parEval (c : Ctx) (tp : List (ℚ × ℚ)) : List (Half × Half) := tp.map (halfEval c)

/-- Accumulator of the join loop `for k in 0..new_result.0.len()`. -/
structure ParFoldAcc where
  newRes : List ℚ
  newAbserr : ℚ
  rounderr : ℚ
  cache : Cache
  heap : List HeapItem

/-- One iteration of the join loop: fold both halves into `new_res`,
`new_abserr`, `rounderr`, the cache and the heap. -/
def foldNewStep (acc : ParFoldAcc) (pr : Half × Half) : ParFoldAcc :=
  { newRes := add_vec (add_vec acc.newRes pr.1.res) pr.2.res
    newAbserr := acc.newAbserr + pr.1.err + pr.2.err
    rounderr := acc.rounderr + pr.1.rnd + pr.2.rnd
    cache := cacheInsert (cacheInsert acc.cache (pr.1.lo, pr.1.hi) pr.1.res)
      (pr.2.lo, pr.2.hi) pr.2.res
    heap := acc.heap ++ [⟨(pr.1.lo, pr.1.hi), pr.1.err⟩, ⟨(pr.2.lo, pr.2.hi), pr.2.err⟩] }

/-- The whole join loop. -/
def foldNew (n : ℕ) (rounderr : ℚ) (cache : Cache) (heap : List HeapItem)
    (news : List (Half × Half)) : ParFoldAcc :=
  news.foldl foldNewStep
    { newRes := zeros n, newAbserr := 0, rounderr := rounderr, cache := cache, heap := heap }

/-- The `iroff1` test of the parallel engine: the boolean stays `true` iff for
every component `(old_result[k] - new_res[k]).abs() <= 0.00001 * new_res[k].abs()`
and `new_abserr >= 0.99 * err_sum`. -/
def iroff1Cond (oldRes newRes : List ℚ) (newAbserr errSum : ℚ) : Bool :=
  (List.range oldRes.length).all fun k =>
    decide (|oldRes.getD k 0 - newRes.getD k 0| ≤ 1 / 100000 * |newRes.getD k 0| ∧
      99 / 100 * errSum ≤ newAbserr)

/-- Outcome of one iteration of the parallel refinement loop. -/
inductive ParStepOut where
  | ret (r : QRes)
  | brk (st : ParSt)
  | cont (st : ParSt)
deriving DecidableEq

/-- Everything a parallel loop iteration does after a successful batch pop:
`last += |batch|`, parallel evaluation, join, stagnation counters, accumulator
updates, then the `abserr <= errbnd/8` break, the
`abserr < rounderr || iroff1 >= 6 || iroff2 >= 20` `BadTolerance` return and
the in-loop `last >= limit` `MaxIteration` return. -/
def afterBatchPar (c : Ctx) (st : ParSt) (tp : List (ℚ × ℚ)) (heap2 : List HeapItem)
    (cache2 : Cache) (errSum : ℚ) (oldRes : List ℚ) : ParStepOut :=
  let last2 := st.last + tp.length
  let acc := foldNew c.n st.rounderr cache2 heap2 (parEval c tp)
  let iroff1b := iroff1Cond oldRes acc.newRes acc.newAbserr errSum
  let iroff1X := st.iroff1 + (if iroff1b then 1 else 0)
  let iroff2X := st.iroff2 + (if 10 < last2 ∧ errSum < acc.newAbserr then 1 else 0)
  let result2 := add_vec (sub_vec st.result oldRes) acc.newRes
  let abserr2 := st.abserr + acc.newAbserr - errSum
  let errbnd2 := max c.epsabs (c.epsrel * c.nv result2)
  let st2 : ParSt := { result := result2, abserr := abserr2, rounderr := acc.rounderr,
                       last := last2, errbnd := errbnd2, heap := acc.heap,
                       cache := acc.cache, iroff1 := iroff1X, iroff2 := iroff2X }
  if abserr2 ≤ errbnd2 / 8 then ParStepOut.brk st2
  else if abserr2 < acc.rounderr ∨ 6 ≤ iroff1X ∨ 20 ≤ iroff2X then
    ParStepOut.ret (QRes.failure ResultState.BadTolerance)
  else if c.limit ≤ last2 then ParStepOut.ret (QRes.failure ResultState.MaxIteration)
  else ParStepOut.cont st2

/-- One full iteration of the parallel `while last < limit` body. -/
def iterStepPar (c : Ctx) (st : ParSt) : ParStepOut :=
  match batchPopPar c.n st with
  | ParPop.miss => ParStepOut.ret QRes.cacheMiss
  | ParPop.bad => ParStepOut.ret (QRes.failure ResultState.BadFunction)
  | ParPop.ok tp heap2 cache2 errSum oldRes => afterBatchPar c st tp heap2 cache2 errSum oldRes

/-- The parallel `while last < limit` loop; leaving the loop (by `break` or by
its condition) falls through to the success payload. -/
def mainLoopPar (c : Ctx) : ℕ → ParSt → QRes
  | 0, _ => QRes.outOfFuel
  | Nat.succ fuel, st =>
    if st.last < c.limit then
      match iterStepPar c st with
      | ParStepOut.ret r => r
      | ParStepOut.brk st2 =>
        successPayload c st2.result st2.abserr st2.rounderr st2.last st2.cache st2.heap
      | ParStepOut.cont st2 => mainLoopPar c fuel st2
    else successPayload c st.result st.abserr st.rounderr st.last st.cache st.heap

/-- The `QagPar` struct from `qag_par.rs` (the thread count only sizes the
worker pool and does not influence the computed values). -/
structure QagPar where
  key : ℤ
  limit : ℕ
  points : List ℚ
  number_of_thread : ℕ
  more_info : Bool

/-- `QagPar::qintegrate` from `qag_par.rs`. -/
def qintegratePar (qk : ℤ → ℚ → ℚ → List ℚ × ℚ × ℚ) (nv : List ℚ → ℚ)
    (self : QagPar) (n : ℕ) (a b epsabs epsrel : ℚ) : QRes :=
  if epsabs ≤ 0 ∧ epsrel < max (5 / 10 ^ 29) (50 * EPMACH) then
    QRes.failure ResultState.Invalid
  else
    let c := mkCtx qk nv self.key self.limit self.more_info n epsabs epsrel
    let st := initLoopState c a b self.points
    if st.abserr + st.rounderr ≤ st.errbnd then
      successPayload c st.result st.abserr st.rounderr st.last st.cache st.heap
    else if self.limit = 1 then QRes.failure ResultState.MaxIteration
    else if st.abserr < st.rounderr then QRes.failure ResultState.BadTolerance
    else
      mainLoopPar c self.limit
        { result := st.result, abserr := st.abserr, rounderr := st.rounderr,
          last := st.last, errbnd := st.errbnd, heap := st.heap, cache := st.cache,
          iroff1 := 0, iroff2 := 0 }

/-- `QagPar::qintegrate` with the dimension obtained from the integrand. -/
def qintegrateParF (qk : ℤ → ℚ → ℚ → List ℚ × ℚ × ℚ) (nv : List ℚ → ℚ)
    (self : QagPar) (f : ℚ → List ℚ) (a b epsabs epsrel : ℚ) : QRes :=
  qintegratePar qk nv self (f 0).length a b epsabs epsrel

/-!
The rule evaluator `Qk61VecNorm2::integrate` from `qk61_vec_norm2.rs`.
Vectors `[f64; N]` are embedded as `Fin n → ℝ`; the coefficient tables are
the source's decimal literals as exact rationals.  The `+=` loops accumulate
fixed index ranges, embedded as `Finset.range` sums; the stored node values
`fv1[j]`, `fv2[j]` are re-evaluations `f(centr ∓ hlgth*XGK[j])` (the
integrand is a pure function, so storing and re-evaluating agree).
-/

/-- `XGK` of the 61-point rule (`XGK61 j` is the source's `XGK[j]`). -/
def XGK61 : ℕ → ℚ
  | 0 => 0.999484410050490637571325895705811
  | 1 => 0.996893484074649540271630050918695
  | 2 => 0.991630996870404594858628366109486
  | 3 => 0.983668123279747209970032581605663
  | 4 => 0.973116322501126268374693868423707
  | 5 => 0.960021864968307512216871025581798
  | 6 => 0.944374444748559979415831324037439
  | 7 => 0.926200047429274325879324277080474
  | 8 => 0.905573307699907798546522558925958
  | 9 => 0.882560535792052681543116462530226
  | 10 => 0.857205233546061098958658510658944
  | 11 => 0.829565762382768397442898119732502
  | 12 => 0.799727835821839083013668942322683
  | 13 => 0.767777432104826194917977340974503
  | 14 => 0.733790062453226804726171131369528
  | 15 => 0.697850494793315796932292388026640
  | 16 => 0.660061064126626961370053668149271
  | 17 => 0.620526182989242861140477556431189
  | 18 => 0.579345235826361691756024932172540
  | 19 => 0.536624148142019899264169793311073
  | 20 => 0.492480467861778574993693061207709
  | 21 => 0.447033769538089176780609900322854
  | 22 => 0.400401254830394392535476211542661
  | 23 => 0.352704725530878113471037207089374
  | 24 => 0.304073202273625077372677107199257
  | 25 => 0.254636926167889846439805129817805
  | 26 => 0.204525116682309891438957671002025
  | 27 => 0.153869913608583546963794672743256
  | 28 => 0.102806937966737030147096751318001
  | 29 => 0.051471842555317695833025213166723
  | 30 => 0
  | _ => 0

/-- `WGK` of the 61-point rule. -/
def WGK61 : ℕ → ℚ
  | 0 => 0.001389013698677007624551591226760
  | 1 => 0.003890461127099884051267201844516
  | 2 => 0.006630703915931292173319826369750
  | 3 => 0.009273279659517763428441146892024
  | 4 => 0.011823015253496341742232898853251
  | 5 => 0.014369729507045804812451432443580
  | 6 => 0.016920889189053272627572289420322
  | 7 => 0.019414141193942381173408951050128
  | 8 => 0.021828035821609192297167485738339
  | 9 => 0.024191162078080601365686370725232
  | 10 => 0.026509954882333101610601709335075
  | 11 => 0.028754048765041292843978785354334
  | 12 => 0.030907257562387762472884252943092
  | 13 => 0.032981447057483726031814191016854
  | 14 => 0.034979338028060024137499670731468
  | 15 => 0.036882364651821229223911065617136
  | 16 => 0.038678945624727592950348651532281
  | 17 => 0.040374538951535959111995279752468
  | 18 => 0.041969810215164246147147541285970
  | 19 => 0.043452539701356069316831728117073
  | 20 => 0.044814800133162663192355551616723
  | 21 => 0.046059238271006988116271735559374
  | 22 => 0.047185546569299153945261478181099
  | 23 => 0.048185861757087129140779492298305
  | 24 => 0.049055434555029778887528165367238
  | 25 => 0.049795683427074206357811569379942
  | 26 => 0.050405921402782346840893085653585
  | 27 => 0.050881795898749606492297473049805
  | 28 => 0.051221547849258772170656282604944
  | 29 => 0.051426128537459025933862879215781
  | 30 => 0.051494729429451567558340433647099
  | _ => 0

/-- `WG` of the embedded 30-point Gauss rule. -/
def WG61 : ℕ → ℚ
  | 0 => 0.007968192496166605615465883474674
  | 1 => 0.018466468311090959142302131912047
  | 2 => 0.028784707883323369349719179611292
  | 3 => 0.038799192569627049596801936446348
  | 4 => 0.048402672830594052902938140422808
  | 5 => 0.057493156217619066481721689402056
  | 6 => 0.065974229882180495128128515115962
  | 7 => 0.073755974737705206268243850022191
  | 8 => 0.080755895229420215354694938460530
  | 9 => 0.086899787201082979802387530715126
  | 10 => 0.092122522237786128717632707087619
  | 11 => 0.096368737174644259639468626351810
  | 12 => 0.099593420586795267062780282103569
  | 13 => 0.101762389748405504596428952168554
  | 14 => 0.102852652893558840341285636705415
  | _ => 0

/-- `centr = 0.5 * (b + a)`. -/
noncomputable def qkCentr (a b : ℝ) : ℝ := (b + a) / 2

/-- `hlgth = 0.5 * (b - a)`. -/
noncomputable def qkHlgth (a b : ℝ) : ℝ := (b - a) / 2

/-- The stored node value `fv1[i] = f(centr - hlgth * XGK[i])`. -/
noncomputable def qkFv1 {n : ℕ} (f : ℝ → Fin n → ℝ) (a b : ℝ) (i : ℕ) : Fin n → ℝ :=
  f (qkCentr a b - qkHlgth a b * (XGK61 i : ℝ))

/-- The stored node value `fv2[i] = f(centr + hlgth * XGK[i])`. -/
noncomputable def qkFv2 {n : ℕ} (f : ℝ → Fin n → ℝ) (a b : ℝ) (i : ℕ) : Fin n → ℝ :=
  f (qkCentr a b + qkHlgth a b * (XGK61 i : ℝ))

/-- The accumulated `resk` (unscaled Kronrod sum): centre term plus the even
and odd node loops (`jtw = 2j`, `jtwm1 = 2j - 1` in 1-based source indices,
i.e. 0-based indices `2j+1` and `2j`). -/
noncomputable def qkResk {n : ℕ} (f : ℝ → Fin n → ℝ) (a b : ℝ) (k : Fin n) : ℝ :=
  (WGK61 30 : ℝ) * f (qkCentr a b) k
  + (Finset.range 15).sum
      (fun j => (WGK61 (2 * j + 1) : ℝ) * (qkFv1 f a b (2 * j + 1) k + qkFv2 f a b (2 * j + 1) k))
  + (Finset.range 15).sum
      (fun j => (WGK61 (2 * j) : ℝ) * (qkFv1 f a b (2 * j) k + qkFv2 f a b (2 * j) k))

/-- The accumulated `resg` (unscaled Gauss sum, only the even-node loop). -/
noncomputable def qkResg {n : ℕ} (f : ℝ → Fin n → ℝ) (a b : ℝ) (k : Fin n) : ℝ :=
  (Finset.range 15).sum
    (fun j => (WG61 j : ℝ) * (qkFv1 f a b (2 * j + 1) k + qkFv2 f a b (2 * j + 1) k))

/-- The accumulated `resabs` (unscaled). -/
noncomputable def qkResabs {n : ℕ} (f : ℝ → Fin n → ℝ) (a b : ℝ) (k : Fin n) : ℝ :=
  |(WGK61 30 : ℝ) * f (qkCentr a b) k|
  + (Finset.range 15).sum
      (fun j => (WGK61 (2 * j + 1) : ℝ) * (|qkFv1 f a b (2 * j + 1) k| + |qkFv2 f a b (2 * j + 1) k|))
  + (Finset.range 15).sum
      (fun j => (WGK61 (2 * j) : ℝ) * (|qkFv1 f a b (2 * j) k| + |qkFv2 f a b (2 * j) k|))

/-- `reskh = resk * 0.5`. -/
noncomputable def qkReskh {n : ℕ} (f : ℝ → Fin n → ℝ) (a b : ℝ) (k : Fin n) : ℝ :=
  qkResk f a b k / 2

/-- The accumulated `resasc` (unscaled): centre term plus the
`for j in 1..31` loop over the stored node values. -/
noncomputable def qkResasc {n : ℕ} (f : ℝ → Fin n → ℝ) (a b : ℝ) (k : Fin n) : ℝ :=
  (WGK61 30 : ℝ) * |f (qkCentr a b) k - qkReskh f a b k|
  + (Finset.range 30).sum
      (fun i => (WGK61 i : ℝ) *
        (|qkFv1 f a b i k - qkReskh f a b k| + |qkFv2 f a b i k - qkReskh f a b k|))

/-- The raw error norm of `Qk61VecNorm2::integrate`:
`sqrt(Σ_k (((resk[k] - resg[k]) * hlgth).abs())²)`. -/
noncomputable def qkErrNorm (n : ℕ) (f : ℝ → Fin n → ℝ) (a b : ℝ) : ℝ :=
  Real.sqrt (Finset.univ.sum fun k : Fin n => |(qkResk f a b k - qkResg f a b k) * qkHlgth a b| ^ 2)

/-- `resabs_scalar`: the norm of the `dhlgth`-scaled `resabs`. -/
noncomputable def qkResabsScalar (n : ℕ) (f : ℝ → Fin n → ℝ) (a b : ℝ) : ℝ :=
  Real.sqrt (Finset.univ.sum fun k : Fin n => (qkResabs f a b k * |qkHlgth a b|) ^ 2)

/-- `resasc_scalar`: the norm of the `dhlgth`-scaled `resasc`. -/
noncomputable def qkResascScalar (n : ℕ) (f : ℝ → Fin n → ℝ) (a b : ℝ) : ℝ :=
  Real.sqrt (Finset.univ.sum fun k : Fin n => (qkResasc f a b k * |qkHlgth a b|) ^ 2)

/-- `round_error = 50.0 * EPMACH * resabs_scalar`. -/
noncomputable def qkRoundError (n : ℕ) (f : ℝ → Fin n → ℝ) (a b : ℝ) : ℝ :=
  50 * ((EPMACH : ℚ) : ℝ) * qkResabsScalar n f a b

/-- `Qk61VecNorm2::integrate`: result vector, `abserr` (norm of the raw
errors, smoothed once at the scalar level, then floored by the roundoff when
`round_error > UFLOW`), and `round_error`. -/
noncomputable def qk61Integrate (n : ℕ) (f : ℝ → Fin n → ℝ) (a b : ℝ) :
    (Fin n → ℝ) × ℝ × ℝ :=
  let errRaw := qkErrNorm n f a b
  let resascS := qkResascScalar n f a b
  let abserr1 :=
    if resascS ≠ 0 ∧ errRaw ≠ 0 then resascS * min 1 ((200 * errRaw / resascS) ^ (3 / 2 : ℝ))
    else errRaw
  let roundErr := qkRoundError n f a b
  let abserr2 := if ((UFLOW : ℚ) : ℝ) < roundErr then max abserr1 roundErr else abserr1
  (fun k => qkResk f a b k * qkHlgth a b, abserr2, roundErr)

/-- Modelled from the spec (claim wording): the per-component error
`err_k = |D_k|`, refined per component by the Piessens smoothing
`err_k = asc_k * min(1, (200*err_k/asc_k)^1.5)` whenever `asc_k ≠ 0` and
`err_k ≠ 0`; the scalar `abserr` is the Euclidean norm of these. -/
noncomputable def abserrPerComponent (n : ℕ) (f : ℝ → Fin n → ℝ) (a b : ℝ) : ℝ :=
  Real.sqrt (Finset.univ.sum fun k : Fin n =>
    (let e := |(qkResk f a b k - qkResg f a b k) * qkHlgth a b|
     let s := qkResasc f a b k * |qkHlgth a b|
     if s ≠ 0 ∧ e ≠ 0 then s * min 1 ((200 * e / s) ^ (3 / 2 : ℝ)) else e) ^ 2)

/-- The amended description of the source: Euclidean norms are taken first
(of the raw per-component errors and of the per-component `asc`), the
Piessens smoothing is applied once to those scalars, and the result is
floored by the roundoff when `round_error > UFLOW`. -/
noncomputable def abserrNormThenSmooth (n : ℕ) (f : ℝ → Fin n → ℝ) (a b : ℝ) : ℝ :=
  let e := qkErrNorm n f a b
  let s := qkResascScalar n f a b
  let smoothed := if s ≠ 0 ∧ e ≠ 0 then s * min 1 ((200 * e / s) ^ (3 / 2 : ℝ)) else e
  if ((UFLOW : ℚ) : ℝ) < qkRoundError n f a b then max smoothed (qkRoundError n f a b)
  else smoothed

/-!  Derived notions used to state the engine invariants. -/

/-- Sum of the `err` fields of the heap entries. -/
def heapErrSum (h : List HeapItem) : ℚ := (h.map HeapItem.err).sum

/-- The cached result vector of a heap entry (`zeros n` when absent — the
invariant below rules the absent case out). -/
def cachedRes (n : ℕ) (cache : Cache) (it : HeapItem) : List ℚ :=
  (cacheGet cache it.iv).getD (zeros n)

/-- Component-wise sum of the cached result vectors of the heap entries. -/
def heapCachedSum (n : ℕ) (cache : Cache) (heap : List HeapItem) : List ℚ :=
  vsum n (heap.map (cachedRes n cache))

/-- Component-wise sum of the rule results of the heap intervals. -/
def heapRuleSum (c : Ctx) (heap : List HeapItem) : List ℚ :=
  vsum c.n (heap.map fun it => rres c it.iv.1 it.iv.2)

/-- Sum of the rule roundoff contributions of the heap intervals. -/
def heapRoundSum (c : Ctx) (heap : List HeapItem) : ℚ :=
  (heap.map fun it => rrnd c it.iv.1 it.iv.2).sum

/-- The interval hulls of `p` and `q` have disjoint interiors (`p` and `q`
as unordered endpoint pairs; a degenerate pair is disjoint from anything). -/
def ivDisj (p q : ℚ × ℚ) : Prop :=
  min (max p.1 p.2) (max q.1 q.2) ≤ max (min p.1 p.2) (min q.1 q.2)

instance (p q : ℚ × ℚ) : Decidable (ivDisj p q) := by unfold ivDisj; infer_instance

/-- The hypothesis that the rule functions return vectors of the engine's
dimension `n` (true of the actual `qkXX_quadrature` implementations). -/
def QkLen (c : Ctx) : Prop := ∀ k x y, ((c.qk k x y).1).length = c.n

/-- The state invariant of the sequential engine: the result vector has
length `n`; every heap interval has a cache entry holding exactly the rule
result of that interval; the running sum `S` is the component-wise sum of the
cached results of exactly the heap intervals; the running error `E` is the
sum of their `abserr`s; and the heap intervals have pairwise disjoint
interiors. -/
def GoodSeq (c : Ctx) (st : LoopSt) : Prop :=
  st.result.length = c.n ∧
  (∀ it ∈ st.heap, cacheGet st.cache it.iv = some (rres c it.iv.1 it.iv.2)) ∧
  st.result = heapCachedSum c.n st.cache st.heap ∧
  st.abserr = heapErrSum st.heap ∧
  List.Pairwise (fun i j => ivDisj i.iv j.iv) st.heap

/-- The heap entry corresponding to a popped record. -/
def toHeapItem (p : Popped) : HeapItem := ⟨(p.x, p.y), p.err⟩

/-- The two heap entries pushed when a popped interval is bisected. -/
def halfItems (c : Ctx) (p : Popped) : List HeapItem :=
  [⟨(p.x, (p.x + p.y) / 2), rerr c p.x ((p.x + p.y) / 2)⟩,
   ⟨((p.x + p.y) / 2, p.y), rerr c ((p.x + p.y) / 2) p.y⟩]

/-- The two cache keys inserted when a popped interval is bisected. -/
def halfKeys (p : Popped) : List (ℚ × ℚ) :=
  [(p.x, (p.x + p.y) / 2), ((p.x + p.y) / 2, p.y)]

/-- Modelled from the spec (§4.4.5 step 2): scanning the batch window in pop
order, does some popped interval violate the singularity guard
`max(|x|,|y|) > (1 + 100·ε) · (|(x+y)/2| + 1000·u_min)`?  The scan stops at
the same window boundaries as the batch pop (capacity, empty heap,
accumulated error past `E - errbnd/8`). -/
def batchViolationScan : ℕ → List HeapItem → ℚ → ℚ → ℚ → Bool
  | 0, _, _, _, _ => false
  | Nat.succ k, heap, abserr, errbnd, errSum =>
    match popMax heap with
    | none => false
    | some (it, heap2) =>
      if badGuard it.iv.1 it.iv.2 then true
      else
        let errSum2 := errSum + it.err
        if abserr - errbnd / 8 < errSum2 then false
        else batchViolationScan k heap2 abserr errbnd errSum2

/-- Parallel-loop reachability: the states visited by successive `cont`
iterations from a given state. -/
inductive ReachPar (c : Ctx) : ParSt → ParSt → Prop where
  | refl (st : ParSt) : ReachPar c st st
  | step {s t u : ParSt} : s.last < c.limit → iterStepPar c s = ParStepOut.cont t →
      ReachPar c t u → ReachPar c s u

/-- Modelled from the spec (claim C8 wording): chain a partition
`(a,p₁), (p₁,p₂), …, (pₖ,b)` through a list of cut points. -/
def partitionFrom (a b : ℚ) : ℚ → List ℚ → List (ℚ × ℚ)
  | prev, [] => [(prev, b)]
  | prev, p :: ps => (prev, p) :: partitionFrom a b p ps

/-- Modelled from the spec (claim C8 wording): the partition built from the
sorted points list with duplicates and out-of-range values removed. -/
def initialIntervalsDedup (a b : ℚ) (points : List ℚ) : List (ℚ × ℚ) :=
  let pts := ((List.insertionSort (fun x y => x ≤ y) points).filter
    (fun p => decide (a < p ∧ p < b))).dedup
  if pts.isEmpty then [(a, b)] else partitionFrom a b a pts

/-!  Concrete instances used by counterexamples and witnesses. -/

/-- A norm parameter that is identically zero. -/
def nv0 : List ℚ → ℚ := fun _ => 0

/-- Scalar rule giving error 10 on `(0,1)` and 0 elsewhere, no roundoff. -/
def qkTen : ℤ → ℚ → ℚ → List ℚ × ℚ × ℚ :=
  fun _ x y => ([0], if x = 0 ∧ y = 1 then 10 else 0, 0)

/-- Scalar rule giving error 10 and roundoff 1 on `(0,1)`, 0 elsewhere. -/
def qkRound : ℤ → ℚ → ℚ → List ℚ × ℚ × ℚ :=
  fun _ x y => ([0], if x = 0 ∧ y = 1 then 10 else 0, if x = 0 ∧ y = 1 then 1 else 0)

/-- Scalar rule with all outputs zero. -/
def qkZero : ℤ → ℚ → ℚ → List ℚ × ℚ × ℚ := fun _ _ _ => ([0], 0, 0)

/-- Scalar rule with result `[1]`, error 1, no roundoff. -/
def qkOne : ℤ → ℚ → ℚ → List ℚ × ℚ × ℚ := fun _ _ _ => ([1], 1, 0)

/-- Sum of the non-centre Kronrod weights of the 61-point rule. -/
def sumWGK61 : ℚ := (Finset.range 30).sum fun i => WGK61 i

/-- Sum of the Gauss weights of the embedded 30-point rule. -/
def sumWG61 : ℚ := (Finset.range 15).sum fun j => WG61 j

/-- The centre value of the second component of the counterexample integrand,
chosen so that its Kronrod and Gauss sums agree exactly. -/
def wTuned : ℚ := (sumWG61 - sumWGK61) / WGK61 30

/-- Centre values of the counterexample integrand. -/
def wVec : Fin 2 → ℚ := fun i => if i.val = 0 then 1 else wTuned

/-- The two-component counterexample integrand for the rule evaluator: `1/2`
everywhere except at the centre `0`, where it takes `wVec`. -/
noncomputable def fC3 : ℝ → Fin 2 → ℝ :=
  fun x => if x = 0 then (fun i => ((wVec i : ℚ) : ℝ)) else (fun _ => (1 / 2 : ℝ))

/-- The raw error of the first counterexample component over `(-1, 1)`. -/
def d1C3 : ℚ := WGK61 30 + sumWGK61 - sumWG61

/-- `reskh` of a counterexample component with centre value `w`. -/
def reskhC3 (w : ℚ) : ℚ := (WGK61 30 * w + sumWGK61) / 2

/-- `resasc` of the first counterexample component (absolute values already
resolved by the sign of their arguments). -/
def s0C3 : ℚ := WGK61 30 * (1 - reskhC3 1) + 2 * sumWGK61 * (reskhC3 1 - 1/2)

/-- `resasc` of the second counterexample component (absolute values already
resolved by the sign of their arguments). -/
def s1C3 : ℚ := WGK61 30 * (wTuned - reskhC3 wTuned) + 2 * sumWGK61 * (reskhC3 wTuned - 1/2)

/-!  ## Theorems -/

/-- The success return is never an error return. -/
theorem successPayload_ne_failure (c : Ctx) (r : List ℚ) (e ro : ℚ) (l : ℕ)
    (ch : Cache) (h : List HeapItem) (s : ResultState) :
    successPayload c r e ro l ch h ≠ QRes.failure s := by
  unfold successPayload
  split <;> simp

/-- C7.  `points_transformed` on a doubly infinite range sends the finite
breakpoint `p = 2` to `1/3`, which the substitution `x = t/(1-|t|)` maps to
`1/2`, not to `2`; the inverse map demanded by the spec would send `2` to
`2/3` (whose image is `2`).  This evaluates the code at the failing input of
the code bug. -/
theorem c7_points_transformed_double_infinite :
    points_transformed [2] F64.ninf F64.pinf = [1 / 3] ∧
    (1 / 3 : ℚ) / (1 - |(1 / 3 : ℚ)|) = 1 / 2 ∧ (1 / 2 : ℚ) ≠ 2 ∧
    (2 : ℚ) / (1 + |(2 : ℚ)|) = 2 / 3 ∧ (2 / 3 : ℚ) / (1 - |(2 / 3 : ℚ)|) = 2 := by
  refine ⟨?_, by norm_num [abs], by norm_num, by norm_num [abs], by norm_num [abs]⟩
  norm_num [points_transformed, List.insertionSort, rustSignum, abs]

/-- C8 (counterexample).  With breakpoints `[1, 1]` on `(0, 2)` the code's
initial partition keeps the duplicate and creates the degenerate interval
`(1, 1)`, so it differs from the deduplicated partition demanded by the
claim, and `x < y` fails for one of its intervals. -/
theorem c8_duplicate_points_counterexample :
    initialIntervals 0 2 [1, 1] = [(0, 1), (1, 1), (1, 2)] ∧
    initialIntervalsDedup 0 2 [1, 1] = [(0, 1), (1, 2)] ∧
    initialIntervals 0 2 [1, 1] ≠ initialIntervalsDedup 0 2 [1, 1] ∧
    ((1 : ℚ), (1 : ℚ)) ∈ initialIntervals 0 2 [1, 1] ∧ ¬((1 : ℚ) < 1) := by
  decide

/-- Weak monotonicity of the partition chain: with `prev < b`, a sorted tail
whose in-range elements dominate `prev` yields intervals with `x ≤ y`. -/
theorem initialIntervalsGo_le (a b : ℚ) :
    ∀ (l : List ℚ) (prev : ℚ), prev < b → List.Sorted (fun x y => x ≤ y) l →
      (∀ q ∈ l, a < q → prev ≤ q) →
      ∀ p ∈ initialIntervalsGo a b prev l, p.1 ≤ p.2 := by
  intro l
  induction l with
  | nil =>
    intro prev hprevb _ _ p hp
    simp only [initialIntervalsGo, List.mem_singleton] at hp
    subst hp
    exact le_of_lt hprevb
  | cons q qs ih =>
    intro prev hprevb hsort hprev p hp
    rw [List.sorted_cons] at hsort
    simp only [initialIntervalsGo] at hp
    by_cases hq : a < q ∧ q < b
    · rw [if_pos hq] at hp
      rcases List.mem_cons.mp hp with h1 | h2
      · subst h1
        exact hprev q (List.mem_cons_self q qs) hq.1
      · exact ih q hq.2 hsort.2 (fun r hr _ => hsort.1 r hr) p h2
    · rw [if_neg hq] at hp
      exact ih prev hprevb hsort.2 (fun r hr har => hprev r (List.mem_cons_of_mem q hr) har) p hp

/-- Strict monotonicity of the partition chain when the in-range points are
pairwise distinct. -/
theorem initialIntervalsGo_lt (a b : ℚ) :
    ∀ (l : List ℚ) (prev : ℚ), prev < b →
      (∀ q ∈ l, a < q → q < b → prev < q) →
      List.Pairwise (fun x y => x < y) (l.filter fun p => decide (a < p ∧ p < b)) →
      ∀ p ∈ initialIntervalsGo a b prev l, p.1 < p.2 := by
  intro l
  induction l with
  | nil =>
    intro prev hprevb _ _ p hp
    simp only [initialIntervalsGo, List.mem_singleton] at hp
    subst hp
    exact hprevb
  | cons q qs ih =>
    intro prev hprevb hprev hpair p hp
    simp only [initialIntervalsGo] at hp
    by_cases hq : a < q ∧ q < b
    · rw [if_pos hq] at hp
      have hfilter : (q :: qs).filter (fun p => decide (a < p ∧ p < b)) =
          q :: qs.filter (fun p => decide (a < p ∧ p < b)) := by
        simp [List.filter_cons, hq.1, hq.2]
      rw [hfilter, List.pairwise_cons] at hpair
      rcases List.mem_cons.mp hp with h1 | h2
      · subst h1
        exact hprev q (List.mem_cons_self q qs) hq.1 hq.2
      · refine ih q hq.2 ?_ hpair.2 p h2
        intro r hr har hrb
        exact hpair.1 r (List.mem_filter.mpr ⟨hr, by simp [har, hrb]⟩)
    · rw [if_neg hq] at hp
      have hfilter : (q :: qs).filter (fun p => decide (a < p ∧ p < b)) =
          qs.filter (fun p => decide (a < p ∧ p < b)) := by
        rcases not_and_or.mp hq with h | h <;> simp [List.filter_cons, h]
      rw [hfilter] at hpair
      exact ih prev hprevb (fun r hr har hrb => hprev r (List.mem_cons_of_mem q hr) har hrb)
        hpair p hp

/-- The partitioning fold equals the chain through the in-range points. -/
theorem initialIntervalsGo_eq_partitionFrom (a b : ℚ) :
    ∀ (l : List ℚ) (prev : ℚ),
      initialIntervalsGo a b prev l =
        partitionFrom a b prev (l.filter fun p => decide (a < p ∧ p < b)) := by
  intro l
  induction l with
  | nil => intro prev; rfl
  | cons q qs ih =>
    intro prev
    by_cases hq : a < q ∧ q < b
    · have hfilter : (q :: qs).filter (fun p => decide (a < p ∧ p < b)) =
          q :: qs.filter (fun p => decide (a < p ∧ p < b)) := by
        simp [List.filter_cons, hq.1, hq.2]
      rw [hfilter]
      simp only [initialIntervalsGo, if_pos hq, partitionFrom]
      rw [ih q]
    · have hfilter : (q :: qs).filter (fun p => decide (a < p ∧ p < b)) =
          qs.filter (fun p => decide (a < p ∧ p < b)) := by
        rcases not_and_or.mp hq with h | h <;> simp [List.filter_cons, h]
      rw [hfilter]
      simp only [initialIntervalsGo, if_neg hq]
      exact ih prev

/-- Every interval of the chain is nondegenerate when the cut points are
strictly increasing, above `prev` and below `b`. -/
theorem partitionFrom_lt (a b : ℚ) :
    ∀ (l : List ℚ) (prev : ℚ), prev < b → (∀ q ∈ l, prev < q) → (∀ q ∈ l, q < b) →
      List.Pairwise (fun x y => x < y) l →
      ∀ p ∈ partitionFrom a b prev l, p.1 < p.2 := by
  intro l
  induction l with
  | nil =>
    intro prev hpb _ _ _ p hp
    simp only [partitionFrom, List.mem_singleton] at hp
    subst hp
    exact hpb
  | cons q qs ih =>
    intro prev hpb hprev hb hpw p hp
    rw [List.pairwise_cons] at hpw
    simp only [partitionFrom, List.mem_cons] at hp
    rcases hp with h1 | h2
    · subst h1
      exact hprev q (List.mem_cons_self q qs)
    · exact ih q (hb q (List.mem_cons_self q qs)) (fun r hr => hpw.1 r hr)
        (fun r hr => hb r (List.mem_cons_of_mem q hr)) hpw.2 p h2

/-- A sorted cut list that is not strictly increasing puts a degenerate
interval into the chain. -/
theorem partitionFrom_degenerate (a b : ℚ) :
    ∀ (l : List ℚ) (prev : ℚ), List.Pairwise (fun x y => x ≤ y) l →
      ¬ List.Pairwise (fun x y => x < y) l →
      ∃ p ∈ partitionFrom a b prev l, p.1 = p.2 := by
  intro l
  induction l with
  | nil =>
    intro prev _ hn
    exact absurd List.Pairwise.nil hn
  | cons q qs ih =>
    intro prev hs hn
    rw [List.pairwise_cons] at hs hn
    by_cases hrest : List.Pairwise (fun x y => x < y) qs
    · have hex : ¬ ∀ r ∈ qs, q < r := fun hall => hn ⟨hall, hrest⟩
      push_neg at hex
      rcases hex with ⟨r, hr, hqr⟩
      cases qs with
      | nil => simp at hr
      | cons r0 qs2 =>
        have hq0 : q ≤ r0 := hs.1 r0 (List.mem_cons_self r0 qs2)
        have h0q : r0 ≤ q := by
          rcases List.mem_cons.mp hr with he | he
          · rw [he] at hqr
            exact hqr
          · exact le_trans ((List.pairwise_cons.mp hs.2).1 r he) hqr
        refine ⟨(q, r0), ?_, le_antisymm hq0 h0q⟩
        show (q, r0) ∈ (prev, q) :: partitionFrom a b q (r0 :: qs2)
        exact List.mem_cons_of_mem _ (List.mem_cons_self _ _)
    · rcases ih q hs.2 hrest with ⟨p, hp, hpe⟩
      exact ⟨p, List.mem_cons_of_mem _ hp, hpe⟩

/-- With `a < b` every interval of the deduplicated partition is
nondegenerate. -/
theorem initialIntervalsDedup_lt (a b : ℚ) (pts : List ℚ) (hab : a < b) :
    ∀ p ∈ initialIntervalsDedup a b pts, p.1 < p.2 := by
  intro p hp
  simp only [initialIntervalsDedup] at hp
  split at hp
  · simp only [List.mem_singleton] at hp
    subst hp
    exact hab
  · refine partitionFrom_lt a b _ a hab ?_ ?_ ?_ p hp
    · intro q hq
      have hqF := (List.dedup_sublist _).subset hq
      rcases List.mem_filter.mp hqF with ⟨_, hcond⟩
      exact (of_decide_eq_true hcond).1
    · intro q hq
      have hqF := (List.dedup_sublist _).subset hq
      rcases List.mem_filter.mp hqF with ⟨_, hcond⟩
      exact (of_decide_eq_true hcond).2
    · have hsorted : List.Pairwise (fun x y => x ≤ y)
          (((List.insertionSort (fun x y => x ≤ y) pts).filter
            fun p => decide (a < p ∧ p < b)).dedup) :=
        List.Pairwise.sublist (List.dedup_sublist _)
          (List.Pairwise.filter _ (List.sorted_insertionSort (fun x y => x ≤ y) pts))
      have hnodup : List.Pairwise (fun x y : ℚ => x ≠ y)
          (((List.insertionSort (fun x y => x ≤ y) pts).filter
            fun p => decide (a < p ∧ p < b)).dedup) :=
        List.nodup_dedup _
      exact List.Pairwise.imp (fun h => lt_of_le_of_ne h.1 h.2) (hsorted.and hnodup)

/-- C8 (amended).  The initial partition is built from the sorted breakpoint
list with out-of-range values ignored but duplicates retained; with `a < b`
every interval satisfies `x ≤ y`; all intervals satisfy `x < y` if and only
if the sorted in-range breakpoints are strictly increasing (pairwise
distinct), and the partition equals the deduplicated one exactly under the
same condition — a repeated in-range breakpoint `p` yields the degenerate
interval `(p, p)` and makes the two partitions differ. -/
theorem c8_initial_partition_amended (a b : ℚ) (pts : List ℚ) (hab : a < b) :
    (∀ p ∈ initialIntervals a b pts, p.1 ≤ p.2) ∧
    ((∀ p ∈ initialIntervals a b pts, p.1 < p.2) ↔
      List.Pairwise (fun x y => x < y)
        ((List.insertionSort (fun x y => x ≤ y) pts).filter fun p => decide (a < p ∧ p < b))) ∧
    (initialIntervals a b pts = initialIntervalsDedup a b pts ↔
      List.Pairwise (fun x y => x < y)
        ((List.insertionSort (fun x y => x ≤ y) pts).filter fun p => decide (a < p ∧ p < b))) := by
  have hsortF : List.Pairwise (fun x y => x ≤ y)
      ((List.insertionSort (fun x y => x ≤ y) pts).filter fun p => decide (a < p ∧ p < b)) :=
    List.Pairwise.filter _ (List.sorted_insertionSort (fun x y => x ≤ y) pts)
  by_cases he : (List.insertionSort (fun x y => x ≤ y) pts).isEmpty
  · have hF : (List.insertionSort (fun x y => x ≤ y) pts).filter
        (fun p => decide (a < p ∧ p < b)) = [] := by
      rw [List.isEmpty_iff.mp he]
      rfl
    have hiv : initialIntervals a b pts = [(a, b)] := by
      unfold initialIntervals
      simp only [he, if_pos]
    have hdd : initialIntervalsDedup a b pts = [(a, b)] := by
      simp only [initialIntervalsDedup, hF]
      rfl
    refine ⟨?_, ?_, ?_⟩
    · intro p hp
      rw [hiv] at hp
      simp only [List.mem_singleton] at hp
      subst hp
      exact le_of_lt hab
    · constructor
      · intro _
        rw [hF]
        exact List.Pairwise.nil
      · intro _ p hp
        rw [hiv] at hp
        simp only [List.mem_singleton] at hp
        subst hp
        exact hab
    · constructor
      · intro _
        rw [hF]
        exact List.Pairwise.nil
      · intro _
        rw [hiv, hdd]
  · have hiv0 : initialIntervals a b pts =
        initialIntervalsGo a b a (List.insertionSort (fun x y => x ≤ y) pts) := by
      unfold initialIntervals
      simp only [he, if_neg, Bool.false_eq_true, not_false_eq_true]
    have hiv : initialIntervals a b pts = partitionFrom a b a
        ((List.insertionSort (fun x y => x ≤ y) pts).filter fun p => decide (a < p ∧ p < b)) := by
      rw [hiv0, initialIntervalsGo_eq_partitionFrom]
    refine ⟨?_, ?_, ?_⟩
    · intro p hp
      rw [hiv0] at hp
      exact initialIntervalsGo_le a b _ a hab
        (List.sorted_insertionSort (fun x y => x ≤ y) pts)
        (fun q _ hq => le_of_lt hq) p hp
    · constructor
      · intro hall
        by_contra hnpw
        rcases partitionFrom_degenerate a b _ a hsortF hnpw with ⟨p, hp, hpe⟩
        rw [← hiv] at hp
        have hlt := hall p hp
        rw [hpe] at hlt
        exact lt_irrefl _ hlt
      · intro hpw p hp
        rw [hiv0] at hp
        exact initialIntervalsGo_lt a b _ a hab (fun q _ hq _ => hq) hpw p hp
    · constructor
      · intro heq
        by_contra hnpw
        rcases partitionFrom_degenerate a b _ a hsortF hnpw with ⟨p, hp, hpe⟩
        rw [← hiv, heq] at hp
        have hlt := initialIntervalsDedup_lt a b pts hab p hp
        rw [hpe] at hlt
        exact lt_irrefl _ hlt
      · intro hpw
        have hnd : ((List.insertionSort (fun x y => x ≤ y) pts).filter
            (fun p => decide (a < p ∧ p < b))).dedup =
            (List.insertionSort (fun x y => x ≤ y) pts).filter
              (fun p => decide (a < p ∧ p < b)) :=
          List.dedup_eq_self.mpr (List.Pairwise.imp (fun h => ne_of_lt h) hpw)
        rw [hiv]
        simp only [initialIntervalsDedup, hnd]
        by_cases hFe : ((List.insertionSort (fun x y => x ≤ y) pts).filter
            (fun p => decide (a < p ∧ p < b))).isEmpty
        · rw [if_pos hFe, List.isEmpty_iff.mp hFe]
          rfl
        · rw [if_neg hFe]

/-- C8 (witness): the amended statement at `a = 0`, `b = 2`, `pts = [1]`:
the single in-range breakpoint is trivially pairwise distinct, so every
interval is nondegenerate and the partition equals its deduplication. -/
theorem c8_initial_partition_amended_witness :
    (∀ p ∈ initialIntervals 0 2 [1], p.1 ≤ p.2) ∧
    (∀ p ∈ initialIntervals 0 2 [1], p.1 < p.2) ∧
    initialIntervals 0 2 [1] = initialIntervalsDedup 0 2 [1] := by
  have h := c8_initial_partition_amended 0 2 [1] (by norm_num)
  exact ⟨h.1, h.2.1.mpr (by decide), h.2.2.mpr (by decide)⟩

/-- C9 (counterexample).  A run with one in-range breakpoint (two initial
pieces) that exits on the early-exit path reports `last = 1` and
`neval = 10*keyf + 1 = 21`, not the `(10*keyf+1)*(2*last-1) = 63` with
`last = 2` that the claim derives from the piece count. -/
theorem c9_early_exit_neval_counterexample :
    qintegrate qkZero nv0 ⟨2, 50, [1], true⟩ 1 0 2 1 0 =
      QRes.success [0] 0 (some ⟨21, 1, [((1, 2), [0]), ((0, 1), [0])],
        [⟨(0, 1), 0⟩, ⟨(1, 2), 0⟩]⟩) ∧
    (initialIntervals 0 2 [1]).length = 2 ∧
    nevalCalc 2 2 = 63 ∧ (21 : ℤ) ≠ 63 := by
  refine ⟨?_, by decide, by norm_num [nevalCalc], by norm_num⟩
  norm_num [qintegrate, mkCtx, clampKey, initLoopState, initState, initialIntervals,
    List.insertionSort, List.orderedInsert, initialIntervalsGo, initSeg, add_res, zeros,
    rres, rerr, rrnd, ruleEval, qkZero, nv0, EPMACH, successPayload, nevalCalc, cacheInsert,
    cacheErase]

/-- The initial-partition fold does not touch `last`. -/
theorem initSeg_foldl_last (c : Ctx) :
    ∀ (segs : List (ℚ × ℚ)) (st : LoopSt), (segs.foldl (initSeg c) st).last = st.last := by
  intro segs
  induction segs with
  | nil => intro st; rfl
  | cons s ss ih =>
    intro st
    rw [List.foldl_cons, ih (initSeg c st s)]
    rfl

/-- `last` is not touched by the initial-partition loop. -/
theorem initState_last (c : Ctx) (a b : ℚ) (pts : List ℚ) :
    (initState c a b pts).last = 1 := by
  unfold initState
  rw [initSeg_foldl_last]

/-- C9 (amended).  On the early-exit path the engine succeeds with total
error `E + R`, but the `last` used for `neval` is the constant 1 (the
variable is never updated during initial partitioning), irrespective of the
number of pieces in the initial partition. -/
theorem c9_early_exit_amended (qk : ℤ → ℚ → ℚ → List ℚ × ℚ × ℚ) (nv : List ℚ → ℚ)
    (self : Qag) (n : ℕ) (a b epsabs epsrel : ℚ)
    (hval : ¬(epsabs ≤ 0 ∧ epsrel < max (5 / 10 ^ 29) (50 * EPMACH)))
    (hexit : (initLoopState (mkCtx qk nv self.key self.limit self.more_info n epsabs epsrel)
        a b self.points).abserr +
      (initLoopState (mkCtx qk nv self.key self.limit self.more_info n epsabs epsrel)
        a b self.points).rounderr ≤
      (initLoopState (mkCtx qk nv self.key self.limit self.more_info n epsabs epsrel)
        a b self.points).errbnd) :
    qintegrate qk nv self n a b epsabs epsrel =
      successPayload (mkCtx qk nv self.key self.limit self.more_info n epsabs epsrel)
        (initLoopState (mkCtx qk nv self.key self.limit self.more_info n epsabs epsrel)
          a b self.points).result
        (initLoopState (mkCtx qk nv self.key self.limit self.more_info n epsabs epsrel)
          a b self.points).abserr
        (initLoopState (mkCtx qk nv self.key self.limit self.more_info n epsabs epsrel)
          a b self.points).rounderr
        1
        (initLoopState (mkCtx qk nv self.key self.limit self.more_info n epsabs epsrel)
          a b self.points).cache
        (initLoopState (mkCtx qk nv self.key self.limit self.more_info n epsabs epsrel)
          a b self.points).heap := by
  have hlast : (initLoopState (mkCtx qk nv self.key self.limit self.more_info n epsabs epsrel)
      a b self.points).last = 1 := by
    unfold initLoopState
    exact initState_last _ a b self.points
  unfold qintegrate
  rw [if_neg hval, if_pos hexit, hlast]

/-- C9 (witness): the amended statement at the concrete early-exit run with
two initial pieces. -/
theorem c9_early_exit_amended_witness :
    qintegrate qkZero nv0 ⟨2, 50, [1], true⟩ 1 0 2 1 0 =
      successPayload (mkCtx qkZero nv0 2 50 true 1 1 0)
        (initLoopState (mkCtx qkZero nv0 2 50 true 1 1 0) 0 2 [1]).result
        (initLoopState (mkCtx qkZero nv0 2 50 true 1 1 0) 0 2 [1]).abserr
        (initLoopState (mkCtx qkZero nv0 2 50 true 1 1 0) 0 2 [1]).rounderr
        1
        (initLoopState (mkCtx qkZero nv0 2 50 true 1 1 0) 0 2 [1]).cache
        (initLoopState (mkCtx qkZero nv0 2 50 true 1 1 0) 0 2 [1]).heap :=
  c9_early_exit_amended qkZero nv0 ⟨2, 50, [1], true⟩ 1 0 2 1 0
    (by norm_num [EPMACH])
    (by norm_num [initLoopState, initState, initialIntervals, List.insertionSort,
      List.orderedInsert, initialIntervalsGo, initSeg, add_res, zeros, rres, rerr, rrnd,
      ruleEval, qkZero, nv0, mkCtx, clampKey])

/-- C2 (counterexample).  A run with `limit = 2` whose first refinement batch
satisfies the success test `E ≤ errbnd/8` (here `E = 0 ≤ 1/8`), yet the
engine returns `MaxIteration` because the post-loop check fires on
`last = 2 ≥ limit`. -/
theorem c2_success_break_counterexample :
    iterStepSeq (mkCtx qkTen nv0 1 2 false 1 1 0)
        (initLoopState (mkCtx qkTen nv0 1 2 false 1 1 0) 0 1 []) =
      StepOut.brk ⟨[0], 0, 0, 2, 1, [⟨(0, 1 / 2), 0⟩, ⟨(1 / 2, 1), 0⟩],
        [((1 / 2, 1), [0]), ((0, 1 / 2), [0])]⟩ ∧
    (0 : ℚ) ≤ 1 / 8 ∧
    qintegrate qkTen nv0 ⟨1, 2, [], false⟩ 1 0 1 1 0 =
      QRes.failure ResultState.MaxIteration := by
  refine ⟨?_, by norm_num, ?_⟩ <;>
    norm_num [qintegrate, mkCtx, clampKey, initLoopState, initState, initialIntervals,
      List.insertionSort, initialIntervalsGo, initSeg, add_res, zeros, rres, rerr, rrnd,
      ruleEval, qkTen, nv0, EPMACH, mainLoopSeq, iterStepSeq, batchPopSeq, batchPopGo,
      popMax, cacheRemove, cacheGet, cacheErase, cacheInsert, processComps, processOne,
      res_update, afterLoopSeq, successPayload, nevalCalc]

/-- C2 (amended).  A batch that ends with `E ≤ errbnd/8` makes the loop
`break`; the engine then returns success only if additionally `last < limit`,
and returns `MaxIteration` exactly when the loop is left (by `break` or by
its condition) with `last ≥ limit`. -/
theorem c2_loop_exit_amended (c : Ctx) (fuel : ℕ) (st st2 : LoopSt)
    (hlt : st.last < c.limit) (hbrk : iterStepSeq c st = StepOut.brk st2) :
    (mainLoopSeq c (fuel + 1) st =
      if c.limit ≤ st2.last then QRes.failure ResultState.MaxIteration
      else successPayload c st2.result st2.abserr st2.rounderr st2.last st2.cache st2.heap) ∧
    (∀ s : LoopSt, afterLoopSeq c s = QRes.failure ResultState.MaxIteration ↔ c.limit ≤ s.last) := by
  constructor
  · simp only [mainLoopSeq, if_pos hlt, hbrk]
    rfl
  · intro s
    by_cases hle : c.limit ≤ s.last
    · simp [afterLoopSeq, hle]
    · simp only [afterLoopSeq, if_neg hle]
      constructor
      · intro h
        exact absurd h (successPayload_ne_failure c s.result s.abserr s.rounderr s.last
          s.cache s.heap ResultState.MaxIteration)
      · intro h
        exact absurd h hle

/-- C2 (witness): the amended statement at the concrete break-with-
`last = limit` run, where it yields `MaxIteration`. -/
theorem c2_loop_exit_amended_witness :
    mainLoopSeq (mkCtx qkTen nv0 1 2 false 1 1 0) 2
        (initLoopState (mkCtx qkTen nv0 1 2 false 1 1 0) 0 1 []) =
      QRes.failure ResultState.MaxIteration := by
  have h := (c2_loop_exit_amended (mkCtx qkTen nv0 1 2 false 1 1 0) 1
    (initLoopState (mkCtx qkTen nv0 1 2 false 1 1 0) 0 1 [])
    ⟨[0], 0, 0, 2, 1, [⟨(0, 1 / 2), 0⟩, ⟨(1 / 2, 1), 0⟩],
      [((1 / 2, 1), [0]), ((0, 1 / 2), [0])]⟩
    (by norm_num [mkCtx, initLoopState, initState, initialIntervals, List.insertionSort,
      initialIntervalsGo, initSeg, zeros, clampKey])
    (by norm_num [mkCtx, clampKey, initLoopState, initState, initialIntervals,
      List.insertionSort, initialIntervalsGo, initSeg, add_res, zeros, rres, rerr, rrnd,
      ruleEval, qkTen, nv0, iterStepSeq, batchPopSeq, batchPopGo, popMax, cacheRemove,
      cacheGet, cacheErase, cacheInsert, processComps, processOne, res_update])).1
  rw [if_pos (by norm_num [mkCtx])] at h
  exact h

/-- C6 (counterexample).  A reachable state (one refinement batch after a
start whose single interval carries roundoff 1) where the running roundoff
accumulator is 1 but the heap holds only the two halves, whose roundoff
contributions sum to 0: the popped interval's roundoff still contributes. -/
theorem c6_roundoff_heap_counterexample :
    iterStepSeq (mkCtx qkRound nv0 1 3 false 1 1 0)
        (initLoopState (mkCtx qkRound nv0 1 3 false 1 1 0) 0 1 []) =
      StepOut.brk ⟨[0], 0, 1, 2, 1, [⟨(0, 1 / 2), 0⟩, ⟨(1 / 2, 1), 0⟩],
        [((1 / 2, 1), [0]), ((0, 1 / 2), [0])]⟩ ∧
    heapRoundSum (mkCtx qkRound nv0 1 3 false 1 1 0)
      [⟨(0, 1 / 2), 0⟩, ⟨(1 / 2, 1), 0⟩] = 0 ∧
    (1 : ℚ) ≠ 0 := by
  refine ⟨?_, ?_, by norm_num⟩ <;>
    norm_num [mkCtx, clampKey, initLoopState, initState, initialIntervals,
      List.insertionSort, initialIntervalsGo, initSeg, add_res, zeros, rres, rerr, rrnd,
      ruleEval, qkRound, nv0, iterStepSeq, batchPopSeq, batchPopGo, popMax, cacheRemove,
      cacheGet, cacheErase, cacheInsert, processComps, processOne, res_update,
      heapRoundSum]

/-- The initial-partition fold accumulates `rounderr` additively. -/
theorem initSeg_foldl_rounderr (c : Ctx) :
    ∀ (segs : List (ℚ × ℚ)) (st : LoopSt),
      (segs.foldl (initSeg c) st).rounderr =
        st.rounderr + (segs.map fun s => rrnd c s.1 s.2).sum := by
  intro segs
  induction segs with
  | nil => intro st; simp
  | cons s ss ih =>
    intro st
    rw [List.foldl_cons, ih (initSeg c st s)]
    simp only [initSeg, List.map_cons, List.sum_cons]
    ring

/-- The parallel join fold accumulates `rounderr` additively. -/
theorem foldNewStep_foldl_rounderr :
    ∀ (news : List (Half × Half)) (acc : ParFoldAcc),
      (news.foldl foldNewStep acc).rounderr =
        acc.rounderr + (news.map fun pr => pr.1.rnd + pr.2.rnd).sum := by
  intro news
  induction news with
  | nil => intro acc; simp
  | cons pr prs ih =>
    intro acc
    rw [List.foldl_cons, ih (foldNewStep acc pr)]
    simp only [foldNewStep, List.map_cons, List.sum_cons]
    ring

/-- The refinement fold accumulates `rounderr` additively. -/
theorem processComps_rounderr (c : Ctx) :
    ∀ (tp : List Popped) (st : LoopSt),
      (processComps c st tp).rounderr =
        st.rounderr + (tp.map fun p =>
          rrnd c p.x ((p.x + p.y) / 2) + rrnd c ((p.x + p.y) / 2) p.y).sum := by
  intro tp
  induction tp with
  | nil => intro st; simp [processComps]
  | cons p ps ih =>
    intro st
    show ((p :: ps).foldl (processOne c) st).rounderr = _
    rw [List.foldl_cons]
    have h2 := ih (processOne c st p)
    rw [processComps] at h2
    rw [h2]
    simp only [processOne, List.map_cons, List.sum_cons]
    ring

/-- C6 (amended).  The roundoff accumulator `R` only ever grows: after the
initial partitioning it is the sum of the roundoffs of the initial pieces,
and each refinement step adds exactly the roundoffs of the freshly evaluated
halves of the popped intervals — the popped intervals' own roundoffs are
never subtracted (in the sequential and in the parallel engine alike). -/
theorem c6_roundoff_accumulation_amended :
    (∀ (c : Ctx) (a b : ℚ) (pts : List ℚ),
      (initState c a b pts).rounderr =
        ((initialIntervals a b pts).map fun s => rrnd c s.1 s.2).sum) ∧
    (∀ (c : Ctx) (st : LoopSt) (tp : List Popped),
      (processComps c st tp).rounderr =
        st.rounderr + (tp.map fun p =>
          rrnd c p.x ((p.x + p.y) / 2) + rrnd c ((p.x + p.y) / 2) p.y).sum) ∧
    (∀ (n : ℕ) (r0 : ℚ) (cache : Cache) (heap : List HeapItem)
        (news : List (Half × Half)),
      (foldNew n r0 cache heap news).rounderr =
        r0 + (news.map fun pr => pr.1.rnd + pr.2.rnd).sum) := by
  refine ⟨?_, ?_, ?_⟩
  · intro c a b pts
    unfold initState
    rw [initSeg_foldl_rounderr]
    norm_num
  · intro c st tp
    exact processComps_rounderr c tp st
  · intro n r0 cache heap news
    unfold foldNew
    rw [foldNewStep_foldl_rounderr]

/-- The `iroff1` boolean in `∀`-form (for vectors of positive length). -/
theorem iroff1Cond_iff (oldRes newRes : List ℚ) (newAbserr errSum : ℚ)
    (hlen : 0 < oldRes.length) :
    iroff1Cond oldRes newRes newAbserr errSum = true ↔
      ((∀ k < oldRes.length,
        |oldRes.getD k 0 - newRes.getD k 0| ≤ 1 / 100000 * |newRes.getD k 0|) ∧
        99 / 100 * errSum ≤ newAbserr) := by
  unfold iroff1Cond
  rw [List.all_eq_true]
  constructor
  · intro h
    constructor
    · intro k hk
      have := h k (List.mem_range.mpr hk)
      exact (of_decide_eq_true this).1
    · have := h 0 (List.mem_range.mpr hlen)
      exact (of_decide_eq_true this).2
  · intro h k hk
    exact decide_eq_true ⟨h.1 k (List.mem_range.mp hk), h.2⟩

/-- C5.  The stagnation guards of the parallel engine: (i) `iroff1`'s test is
exactly "every component of the popped estimate is reproduced by the halves
to within `10⁻⁵` of the new value, and `new_err_sum ≥ 0.99·err_sum`";
(ii) after a batch the counters increment by exactly the indicator of their
condition (`iroff2`'s being `last > 10` and `new_err_sum > err_sum`, with
`last` already counting the batch); (iii) when the success test fails and
`iroff1 ≥ 6` or `iroff2 ≥ 20` the batch ends with `BadTolerance`. -/
theorem c5_stagnation_guards :
    (∀ (oldRes newRes : List ℚ) (newAbserr errSum : ℚ), 0 < oldRes.length →
      (iroff1Cond oldRes newRes newAbserr errSum = true ↔
        ((∀ k < oldRes.length,
          |oldRes.getD k 0 - newRes.getD k 0| ≤ 1 / 100000 * |newRes.getD k 0|) ∧
          99 / 100 * errSum ≤ newAbserr))) ∧
    (∀ (c : Ctx) (st : ParSt) (tp : List (ℚ × ℚ)) (heap2 : List HeapItem)
        (cache2 : Cache) (errSum : ℚ) (oldRes : List ℚ) (st2 : ParSt),
      (afterBatchPar c st tp heap2 cache2 errSum oldRes = ParStepOut.brk st2 ∨
        afterBatchPar c st tp heap2 cache2 errSum oldRes = ParStepOut.cont st2) →
      st2.iroff1 = st.iroff1 +
        (if iroff1Cond oldRes (foldNew c.n st.rounderr cache2 heap2 (parEval c tp)).newRes
            (foldNew c.n st.rounderr cache2 heap2 (parEval c tp)).newAbserr errSum = true
          then 1 else 0) ∧
      st2.iroff2 = st.iroff2 +
        (if 10 < st.last + tp.length ∧
            errSum < (foldNew c.n st.rounderr cache2 heap2 (parEval c tp)).newAbserr
          then 1 else 0)) ∧
    (∀ (c : Ctx) (st : ParSt) (tp : List (ℚ × ℚ)) (heap2 : List HeapItem)
        (cache2 : Cache) (errSum : ℚ) (oldRes : List ℚ),
      ¬(st.abserr + (foldNew c.n st.rounderr cache2 heap2 (parEval c tp)).newAbserr - errSum ≤
          max c.epsabs (c.epsrel * c.nv (add_vec (sub_vec st.result oldRes)
            (foldNew c.n st.rounderr cache2 heap2 (parEval c tp)).newRes)) / 8) →
      (6 ≤ st.iroff1 +
          (if iroff1Cond oldRes (foldNew c.n st.rounderr cache2 heap2 (parEval c tp)).newRes
              (foldNew c.n st.rounderr cache2 heap2 (parEval c tp)).newAbserr errSum = true
            then 1 else 0) ∨
        20 ≤ st.iroff2 +
          (if 10 < st.last + tp.length ∧
              errSum < (foldNew c.n st.rounderr cache2 heap2 (parEval c tp)).newAbserr
            then 1 else 0)) →
      afterBatchPar c st tp heap2 cache2 errSum oldRes =
        ParStepOut.ret (QRes.failure ResultState.BadTolerance)) := by
  refine ⟨iroff1Cond_iff, ?_, ?_⟩
  · intro c st tp heap2 cache2 errSum oldRes st2 hout
    rcases hout with h | h <;>
    · simp only [afterBatchPar] at h
      repeat' split at h
      all_goals first
        | (rw [ParStepOut.brk.injEq] at h; subst h;
            exact ⟨by first | rfl | simp [*], by first | rfl | simp [*]⟩)
        | (rw [ParStepOut.cont.injEq] at h; subst h;
            exact ⟨by first | rfl | simp [*], by first | rfl | simp [*]⟩)
        | (exact ParStepOut.noConfusion h)
  · intro c st tp heap2 cache2 errSum oldRes hfail htrip
    simp only [afterBatchPar]
    rw [if_neg hfail, if_pos (Or.inr htrip)]

/-- `popMax` returns `none` exactly on the empty heap. -/
theorem popMax_eq_none (l : List HeapItem) : popMax l = none ↔ l = [] := by
  cases l with
  | nil => simp [popMax]
  | cons x xs =>
    simp only [popMax]
    cases popMax xs with
    | none => simp
    | some m => cases m with | mk a b => by_cases hx : x.err < a.err <;> simp [hx]

/-- `popMax` removes exactly one element: the input is a permutation of the
popped element consed onto the remainder. -/
theorem popMax_perm : ∀ (l : List HeapItem) (it : HeapItem) (rest : List HeapItem),
    popMax l = some (it, rest) → l.Perm (it :: rest) := by
  intro l
  induction l with
  | nil => intro it rest h; simp [popMax] at h
  | cons x xs ih =>
    intro it rest h
    simp only [popMax] at h
    split at h
    · rename_i heq
      have hx : xs = [] := (popMax_eq_none xs).mp heq
      subst hx
      simp only [Option.some.injEq, Prod.mk.injEq] at h
      rw [← h.1, ← h.2]
    · rename_i m r0 heq
      split at h
      · rename_i hcmp
        simp only [Option.some.injEq, Prod.mk.injEq] at h
        rcases h with ⟨h1, h2⟩
        subst h1
        subst h2
        have hp := ih _ _ heq
        exact List.Perm.trans (hp.cons x) (List.Perm.swap m x r0)
      · rename_i hcmp
        simp only [Option.some.injEq, Prod.mk.injEq] at h
        rcases h with ⟨h1, h2⟩
        subst h1
        subst h2
        exact List.Perm.refl _

/-- Cache lookup after erasing a key. -/
theorem cacheGet_erase (c : Cache) (k k2 : ℚ × ℚ) :
    cacheGet (cacheErase c k) k2 = if k2 = k then none else cacheGet c k2 := by
  induction c with
  | nil => simp [cacheErase, cacheGet]
  | cons e es ih =>
    simp only [cacheErase]
    by_cases he : e.1 = k
    · rw [if_pos he, ih]
      by_cases h2 : k2 = k
      · simp [h2]
      · have : ¬(e.1 = k2) := fun hc => h2 (hc ▸ he ▸ rfl)
        simp [h2, cacheGet, this]
    · rw [if_neg he]
      simp only [cacheGet]
      by_cases h2 : e.1 = k2
      · have : ¬(k2 = k) := fun hc => he (h2.trans hc)
        simp [h2, this]
      · rw [if_neg h2, if_neg h2, ih]

/-- A present key makes `cacheRemove` succeed with the erased cache. -/
theorem cacheRemove_of_get (c : Cache) (k : ℚ × ℚ) (v : List ℚ)
    (h : cacheGet c k = some v) :
    cacheRemove c k = some (v, cacheErase c k) := by
  unfold cacheRemove
  rw [h]

/-- C4 helper: the only `ret` values of a sequential loop iteration are the
cache-miss panic and `BadTolerance`. -/
theorem iterStepSeq_ret_cases (c : Ctx) (st : LoopSt) (r : QRes)
    (h : iterStepSeq c st = StepOut.ret r) :
    r = QRes.cacheMiss ∨ r = QRes.failure ResultState.BadTolerance := by
  unfold iterStepSeq at h
  cases hb : batchPopSeq st with
  | none =>
    rw [hb] at h
    simp only [StepOut.ret.injEq] at h
    exact Or.inl h.symm
  | some v =>
    rw [hb] at h
    rcases v with ⟨tp, heap2, cache2, errSum⟩
    simp only at h
    split at h
    · exact absurd h (by simp)
    · split at h
      · simp only [StepOut.ret.injEq] at h
        exact Or.inr h.symm
      · exact absurd h (by simp)

/-- C4 helper: the code below the sequential loop never yields `BadFunction`. -/
theorem afterLoopSeq_ne_badfunction (c : Ctx) (st : LoopSt) :
    afterLoopSeq c st ≠ QRes.failure ResultState.BadFunction := by
  unfold afterLoopSeq
  split
  · simp
  · exact successPayload_ne_failure c st.result st.abserr st.rounderr st.last st.cache
      st.heap ResultState.BadFunction

/-- C4 helper: the sequential refinement loop never yields `BadFunction`. -/
theorem mainLoopSeq_ne_badfunction (c : Ctx) :
    ∀ (fuel : ℕ) (st : LoopSt), mainLoopSeq c fuel st ≠ QRes.failure ResultState.BadFunction := by
  intro fuel
  induction fuel with
  | zero => intro st; simp [mainLoopSeq]
  | succ f ih =>
    intro st
    simp only [mainLoopSeq]
    split
    · cases hstep : iterStepSeq c st with
      | ret r =>
        simp only [hstep]
        rcases iterStepSeq_ret_cases c st r hstep with h | h <;> subst h <;> simp
      | brk st2 => simp only [hstep]; exact afterLoopSeq_ne_badfunction c st2
      | cont st2 => simp only [hstep]; exact ih st2
    · exact afterLoopSeq_ne_badfunction c st

/-- C4 helper: `afterBatchPar` only ever returns `BadTolerance` or
`MaxIteration` as `ret` values. -/
theorem afterBatchPar_ret_cases (c : Ctx) (st : ParSt) (tp : List (ℚ × ℚ))
    (heap2 : List HeapItem) (cache2 : Cache) (errSum : ℚ) (oldRes : List ℚ) (r : QRes)
    (h : afterBatchPar c st tp heap2 cache2 errSum oldRes = ParStepOut.ret r) :
    r = QRes.failure ResultState.BadTolerance ∨ r = QRes.failure ResultState.MaxIteration := by
  simp only [afterBatchPar] at h
  repeat' split at h
  all_goals first
    | (simp only [ParStepOut.ret.injEq] at h;
        first | exact Or.inl h.symm | exact Or.inr h.symm)
    | (exact ParStepOut.noConfusion h)

/-- C4 helper: a parallel iteration returns `BadFunction` exactly when its
batch pop hits the singularity guard. -/
theorem iterStepPar_badfun_iff (c : Ctx) (st : ParSt) :
    iterStepPar c st = ParStepOut.ret (QRes.failure ResultState.BadFunction) ↔
      batchPopPar c.n st = ParPop.bad := by
  unfold iterStepPar
  cases hb : batchPopPar c.n st with
  | miss => simp
  | bad => simp
  | ok tp heap2 cache2 errSum oldRes =>
    simp only
    constructor
    · intro h
      rcases afterBatchPar_ret_cases c st tp heap2 cache2 errSum oldRes _ h with hc | hc <;>
        simp at hc
    · intro h
      exact absurd h (by simp)

/-- C4 helper: the parallel batch pop flags `BadFunction` exactly when the
pop-order scan of the batch window meets a guard-violating interval — under
the heap/cache consistency that every heap interval is cached and heap keys
are unambiguous. -/
theorem batchPopParGo_bad_iff_scan :
    ∀ (k : ℕ) (heap : List HeapItem) (cache : Cache) (abserr errbnd errSum : ℚ)
      (tp : List (ℚ × ℚ)) (oldRes : List ℚ),
      (heap.map HeapItem.iv).Nodup →
      (∀ it ∈ heap, (cacheGet cache it.iv).isSome) →
      (batchPopParGo k heap cache abserr errbnd errSum tp oldRes = ParPop.bad ↔
        batchViolationScan k heap abserr errbnd errSum = true) := by
  intro k
  induction k with
  | zero => intro heap cache abserr errbnd errSum tp oldRes _ _; simp [batchPopParGo, batchViolationScan]
  | succ m ih =>
    intro heap cache abserr errbnd errSum tp oldRes hnd hin
    simp only [batchPopParGo, batchViolationScan]
    cases hpm : popMax heap with
    | none => simp
    | some v =>
      rcases v with ⟨it, heap2⟩
      have hperm := popMax_perm heap it heap2 hpm
      have hmem : it ∈ heap := hperm.mem_iff.mpr (List.mem_cons_self it heap2)
      simp only
      by_cases hg : badGuard it.iv.1 it.iv.2
      · simp [hg]
      · rw [if_neg hg, if_neg hg]
        obtain ⟨v, hv⟩ := Option.isSome_iff_exists.mp (hin it hmem)
        rw [cacheRemove_of_get cache it.iv v hv]
        simp only
        by_cases hth : abserr - errbnd / 8 < errSum + it.err
        · simp [hth]
        · rw [if_neg hth, if_neg hth]
          have hmapperm : (heap.map HeapItem.iv).Perm (it.iv :: heap2.map HeapItem.iv) := by
            have := hperm.map HeapItem.iv
            simpa using this
          have hnd2 : (heap2.map HeapItem.iv).Nodup := by
            have := (hmapperm.nodup_iff).mp hnd
            exact (List.nodup_cons.mp this).2
          have hnotin : it.iv ∉ heap2.map HeapItem.iv := by
            have := (hmapperm.nodup_iff).mp hnd
            exact (List.nodup_cons.mp this).1
          refine ih heap2 (cacheErase cache it.iv) abserr errbnd (errSum + it.err) _ _ hnd2 ?_
          intro it2 hit2
          have hne : it2.iv ≠ it.iv := by
            intro hc
            exact hnotin (hc ▸ List.mem_map_of_mem HeapItem.iv hit2)
          rw [cacheGet_erase, if_neg hne]
          exact hin it2 (hperm.mem_iff.mpr (List.mem_cons_of_mem it hit2))

/-- C4 helper: if the parallel loop returns `BadFunction`, some reachable
iteration's batch pop hit the guard. -/
theorem mainLoopPar_badfun_reach (c : Ctx) :
    ∀ (fuel : ℕ) (st : ParSt),
      mainLoopPar c fuel st = QRes.failure ResultState.BadFunction →
      ∃ st2, ReachPar c st st2 ∧ st2.last < c.limit ∧ batchPopPar c.n st2 = ParPop.bad := by
  intro fuel
  induction fuel with
  | zero => intro st h; simp [mainLoopPar] at h
  | succ f ih =>
    intro st h
    simp only [mainLoopPar] at h
    split at h
    · rename_i hlt
      cases hstep : iterStepPar c st with
      | ret r =>
        rw [hstep] at h
        subst h
        exact ⟨st, ReachPar.refl st, hlt, (iterStepPar_badfun_iff c st).mp hstep⟩
      | brk st2 =>
        rw [hstep] at h
        exact absurd h (successPayload_ne_failure c st2.result st2.abserr st2.rounderr
          st2.last st2.cache st2.heap ResultState.BadFunction)
      | cont st2 =>
        rw [hstep] at h
        rcases ih st2 h with ⟨st3, hreach, hl3, hbad⟩
        exact ⟨st3, ReachPar.step hlt hstep hreach, hl3, hbad⟩
    · exact absurd h (successPayload_ne_failure c st.result st.abserr st.rounderr
        st.last st.cache st.heap ResultState.BadFunction)

/-- C4.  The `BadFunction` guard: (a) the sequential engine never returns
`BadFunction`; (b) the parallel batch pop flags `BadFunction` iff scanning
the batch window in pop order meets a guard-violating interval, stopping at
the first one (given heap/cache consistency); (c) a parallel loop iteration
returns `BadFunction` exactly when its batch pop does; (d) whenever the
parallel engine returns `BadFunction`, a reachable loop state's batch pop
hit the guard. -/
theorem c4_badfunction_guard :
    (∀ (qk : ℤ → ℚ → ℚ → List ℚ × ℚ × ℚ) (nv : List ℚ → ℚ) (self : Qag) (n : ℕ)
        (a b epsabs epsrel : ℚ),
      qintegrate qk nv self n a b epsabs epsrel ≠ QRes.failure ResultState.BadFunction) ∧
    (∀ (k : ℕ) (heap : List HeapItem) (cache : Cache) (abserr errbnd errSum : ℚ)
        (tp : List (ℚ × ℚ)) (oldRes : List ℚ),
      (heap.map HeapItem.iv).Nodup →
      (∀ it ∈ heap, (cacheGet cache it.iv).isSome) →
      (batchPopParGo k heap cache abserr errbnd errSum tp oldRes = ParPop.bad ↔
        batchViolationScan k heap abserr errbnd errSum = true)) ∧
    (∀ (c : Ctx) (st : ParSt),
      iterStepPar c st = ParStepOut.ret (QRes.failure ResultState.BadFunction) ↔
        batchPopPar c.n st = ParPop.bad) ∧
    (∀ (qk : ℤ → ℚ → ℚ → List ℚ × ℚ × ℚ) (nv : List ℚ → ℚ) (self : QagPar) (n : ℕ)
        (a b epsabs epsrel : ℚ),
      qintegratePar qk nv self n a b epsabs epsrel = QRes.failure ResultState.BadFunction →
      ∃ st2, ReachPar (mkCtx qk nv self.key self.limit self.more_info n epsabs epsrel)
          { result := (initLoopState (mkCtx qk nv self.key self.limit self.more_info n epsabs
              epsrel) a b self.points).result,
            abserr := (initLoopState (mkCtx qk nv self.key self.limit self.more_info n epsabs
              epsrel) a b self.points).abserr,
            rounderr := (initLoopState (mkCtx qk nv self.key self.limit self.more_info n epsabs
              epsrel) a b self.points).rounderr,
            last := (initLoopState (mkCtx qk nv self.key self.limit self.more_info n epsabs
              epsrel) a b self.points).last,
            errbnd := (initLoopState (mkCtx qk nv self.key self.limit self.more_info n epsabs
              epsrel) a b self.points).errbnd,
            heap := (initLoopState (mkCtx qk nv self.key self.limit self.more_info n epsabs
              epsrel) a b self.points).heap,
            cache := (initLoopState (mkCtx qk nv self.key self.limit self.more_info n epsabs
              epsrel) a b self.points).cache,
            iroff1 := 0, iroff2 := 0 } st2 ∧
        st2.last < self.limit ∧ batchPopPar n st2 = ParPop.bad) := by
  refine ⟨?_, batchPopParGo_bad_iff_scan, iterStepPar_badfun_iff, ?_⟩
  · intro qk nv self n a b epsabs epsrel
    simp only [qintegrate]
    split
    · simp
    · split
      · exact successPayload_ne_failure _ _ _ _ _ _ _ _
      · split
        · simp
        · split
          · simp
          · exact mainLoopSeq_ne_badfunction _ self.limit _
  · intro qk nv self n a b epsabs epsrel h
    simp only [qintegratePar] at h
    split at h
    · simp at h
    · split at h
      · exact absurd h (successPayload_ne_failure _ _ _ _ _ _ _ _)
      · split at h
        · simp at h
        · split at h
          · simp at h
          · exact mainLoopPar_badfun_reach _ self.limit _ h

/-- C4 (witness): the scan characterisation at a concrete one-interval heap
whose interval `(0, 1)` passes the guard, so no `BadFunction` is flagged. -/
theorem c4_badfunction_guard_witness :
    batchPopParGo 1 [⟨(0, 1), 1⟩] [((0, 1), [0])] 10 0 0 [] [0] = ParPop.bad ↔
      batchViolationScan 1 [⟨(0, 1), 1⟩] 10 0 0 = true :=
  c4_badfunction_guard.2.1 1 [⟨(0, 1), 1⟩] [((0, 1), [0])] 10 0 0 [] [0]
    (by simp) (by intro it hit; simp at hit; subst hit; simp [cacheGet])

/-- Rule results have the engine dimension. -/
theorem rres_length (c : Ctx) (hqk : QkLen c) (x y : ℚ) : (rres c x y).length = c.n := by
  unfold rres ruleEval
  split
  · exact hqk c.keyf x y
  · simp [zeros]

/-- `res_update` keeps the common length of its arguments. -/
theorem res_update_length :
    ∀ (v w z y : List ℚ), v.length = w.length → w.length = z.length →
      z.length = y.length → (res_update v w z y).length = v.length := by
  intro v
  induction v with
  | nil =>
    intro w z y h1 _ _
    cases w <;> cases z <;> cases y <;> simp [res_update]
  | cons a v ih =>
    intro w z y h1 h2 h3
    cases w with
    | nil => simp at h1
    | cons b w =>
      cases z with
      | nil => simp at h2
      | cons d z =>
        cases y with
        | nil => simp at h3
        | cons e y =>
          simp only [res_update, List.length_cons, Nat.succ.injEq] at h1 h2 h3 ⊢
          exact ih w z y h1 h2 h3

/-- A successful cache lookup is a cache member. -/
theorem cacheGet_mem : ∀ (c : Cache) (k : ℚ × ℚ) (v : List ℚ),
    cacheGet c k = some v → (k, v) ∈ c := by
  intro c
  induction c with
  | nil => intro k v h; simp [cacheGet] at h
  | cons e es ih =>
    intro k v h
    simp only [cacheGet] at h
    split at h
    · rename_i he
      simp only [Option.some.injEq] at h
      have : (k, v) = e := by
        rw [← he, ← h]
      rw [this]
      exact List.mem_cons_self e es
    · exact List.mem_cons_of_mem e (ih k v h)

/-- Erasing only removes entries. -/
theorem cacheErase_mem : ∀ (c : Cache) (k : ℚ × ℚ) (e : (ℚ × ℚ) × List ℚ),
    e ∈ cacheErase c k → e ∈ c := by
  intro c
  induction c with
  | nil => intro k e h; simp [cacheErase] at h
  | cons f fs ih =>
    intro k e h
    simp only [cacheErase] at h
    split at h
    · exact List.mem_cons_of_mem f (ih k e h)
    · rcases List.mem_cons.mp h with h1 | h2
      · exact h1 ▸ List.mem_cons_self f fs
      · exact List.mem_cons_of_mem f (ih k e h2)

/-- Inserting yields the new entry or an old one. -/
theorem cacheInsert_mem (c : Cache) (k : ℚ × ℚ) (v : List ℚ) (e : (ℚ × ℚ) × List ℚ)
    (h : e ∈ cacheInsert c k v) : e = (k, v) ∨ e ∈ c := by
  unfold cacheInsert at h
  rcases List.mem_cons.mp h with h1 | h2
  · exact Or.inl h1
  · exact Or.inr (cacheErase_mem c k e h2)

/-- All cache values of the state after the initial partitioning have the
engine dimension, and so does the result vector. -/
theorem initState_lengths (c : Ctx) (hqk : QkLen c) (a b : ℚ) (pts : List ℚ) :
    (initState c a b pts).result.length = c.n ∧
      ∀ e ∈ (initState c a b pts).cache, e.2.length = c.n := by
  unfold initState
  generalize initialIntervals a b pts = segs
  have h0 : ∀ (segs : List (ℚ × ℚ)) (st : LoopSt), st.result.length = c.n →
      (∀ e ∈ st.cache, e.2.length = c.n) →
      (segs.foldl (initSeg c) st).result.length = c.n ∧
        ∀ e ∈ (segs.foldl (initSeg c) st).cache, e.2.length = c.n := by
    intro segs
    induction segs with
    | nil => intro st h1 h2; exact ⟨h1, h2⟩
    | cons s ss ih =>
      intro st h1 h2
      rw [List.foldl_cons]
      refine ih (initSeg c st s) ?_ ?_
      · simp only [initSeg, add_res, List.length_zipWith, h1, rres_length c hqk]
        simp
      · intro e he
        simp only [initSeg] at he
        rcases cacheInsert_mem _ _ _ _ he with h3 | h3
        · rw [h3]
          exact rres_length c hqk s.1 s.2
        · exact h2 e h3
  exact h0 segs _ (by simp [zeros]) (by simp)

/-- The sequential batch pop hands out cached vectors and an erased cache. -/
theorem batchPopGo_lengths (c : Ctx) :
    ∀ (k : ℕ) (heap : List HeapItem) (cache : Cache) (ab eb es : ℚ) (acc : List Popped)
      (tp : List Popped) (heap2 : List HeapItem) (cache2 : Cache) (es2 : ℚ),
      batchPopGo k heap cache ab eb es acc = some (tp, heap2, cache2, es2) →
      (∀ e ∈ cache, e.2.length = c.n) → (∀ p ∈ acc, p.res.length = c.n) →
      (∀ p ∈ tp, p.res.length = c.n) ∧ (∀ e ∈ cache2, e.2.length = c.n) := by
  intro k
  induction k with
  | zero =>
    intro heap cache ab eb es acc tp heap2 cache2 es2 h hc ha
    simp only [batchPopGo, Option.some.injEq, Prod.mk.injEq] at h
    rcases h with ⟨h1, _, h3, _⟩
    subst h1
    subst h3
    exact ⟨ha, hc⟩
  | succ m ih =>
    intro heap cache ab eb es acc tp heap2 cache2 es2 h hc ha
    simp only [batchPopGo] at h
    split at h
    · simp only [Option.some.injEq, Prod.mk.injEq] at h
      rcases h with ⟨h1, _, h3, _⟩
      subst h1
      subst h3
      exact ⟨ha, hc⟩
    · rename_i it heap3 hpm
      split at h
      · exact absurd h (by simp)
      · rename_i v cache3 hrm
        have hvlen : v.length = c.n := by
          unfold cacheRemove at hrm
          cases hg : cacheGet cache it.iv with
          | none => rw [hg] at hrm; simp at hrm
          | some w =>
            rw [hg] at hrm
            simp only [Option.some.injEq, Prod.mk.injEq] at hrm
            rw [← hrm.1]
            exact hc (it.iv, w) (cacheGet_mem cache it.iv w hg)
        have hcache3 : ∀ e ∈ cache3, e.2.length = c.n := by
          unfold cacheRemove at hrm
          cases hg : cacheGet cache it.iv with
          | none => rw [hg] at hrm; simp at hrm
          | some w =>
            rw [hg] at hrm
            simp only [Option.some.injEq, Prod.mk.injEq] at hrm
            intro e he
            rw [← hrm.2] at he
            exact hc e (cacheErase_mem cache it.iv e he)
        split at h
        · simp only [Option.some.injEq, Prod.mk.injEq] at h
          rcases h with ⟨h1, _, h3, _⟩
          subst h1
          subst h3
          refine ⟨?_, hcache3⟩
          intro p hp
          rcases List.mem_append.mp hp with h4 | h4
          · exact ha p h4
          · simp only [List.mem_singleton] at h4
            rw [h4]
            exact hvlen
        · refine ih heap3 cache3 ab eb (es + it.err) _ tp heap2 cache2 es2 h hcache3 ?_
          intro p hp
          rcases List.mem_append.mp hp with h4 | h4
          · exact ha p h4
          · simp only [List.mem_singleton] at h4
            rw [h4]
            exact hvlen

/-- The refinement fold keeps the result length and the cache-value lengths. -/
theorem processComps_lengths (c : Ctx) (hqk : QkLen c) :
    ∀ (tp : List Popped) (st : LoopSt), st.result.length = c.n →
      (∀ e ∈ st.cache, e.2.length = c.n) → (∀ p ∈ tp, p.res.length = c.n) →
      (processComps c st tp).result.length = c.n ∧
        ∀ e ∈ (processComps c st tp).cache, e.2.length = c.n := by
  intro tp
  induction tp with
  | nil => intro st h1 h2 _; exact ⟨h1, h2⟩
  | cons p ps ih =>
    intro st h1 h2 h3
    show (processComps c (processOne c st p) ps).result.length = c.n ∧ _
    refine ih (processOne c st p) ?_ ?_ (fun q hq => h3 q (List.mem_cons_of_mem p hq))
    · simp only [processOne]
      rw [res_update_length]
      · exact h1
      · rw [h1, rres_length c hqk]
      · rw [rres_length c hqk, rres_length c hqk]
      · rw [rres_length c hqk, h3 p (List.mem_cons_self p ps)]
    · intro e he
      simp only [processOne] at he
      rcases cacheInsert_mem _ _ _ _ he with h4 | h4
      · rw [h4]; exact rres_length c hqk _ _
      · rcases cacheInsert_mem _ _ _ _ h4 with h5 | h5
        · rw [h5]; exact rres_length c hqk _ _
        · exact h2 e h5

/-- A sequential loop iteration keeps the result length and cache-value
lengths. -/
theorem iterStepSeq_lengths (c : Ctx) (hqk : QkLen c) (st st2 : LoopSt)
    (h : iterStepSeq c st = StepOut.cont st2 ∨ iterStepSeq c st = StepOut.brk st2)
    (h1 : st.result.length = c.n) (h2 : ∀ e ∈ st.cache, e.2.length = c.n) :
    st2.result.length = c.n ∧ ∀ e ∈ st2.cache, e.2.length = c.n := by
  have hmain : ∀ r, iterStepSeq c st = r →
      (r = StepOut.cont st2 ∨ r = StepOut.brk st2) →
      st2.result.length = c.n ∧ ∀ e ∈ st2.cache, e.2.length = c.n := by
    intro r hr hcase
    unfold iterStepSeq at hr
    cases hb : batchPopSeq st with
    | none =>
      rw [hb] at hr
      subst hr
      rcases hcase with h3 | h3 <;> exact absurd h3 (by simp)
    | some v =>
      rw [hb] at hr
      rcases v with ⟨tp, heap2, cache2, errSum⟩
      simp only at hr
      have hl := batchPopGo_lengths c 128 st.heap st.cache st.abserr st.errbnd 0 [] tp
        heap2 cache2 errSum hb h2 (by simp)
      have hp := processComps_lengths c hqk tp { st with heap := heap2, cache := cache2 }
        h1 hl.2 hl.1
      split at hr
      · subst hr
        rcases hcase with h3 | h3
        · exact absurd h3 (by simp)
        · rw [StepOut.brk.injEq] at h3
          rw [← h3]
          exact hp
      · split at hr
        · subst hr
          rcases hcase with h3 | h3 <;> exact absurd h3 (by simp)
        · subst hr
          rcases hcase with h3 | h3
          · rw [StepOut.cont.injEq] at h3
            rw [← h3]
            exact hp
          · exact absurd h3 (by simp)
  rcases h with h | h
  · exact hmain _ h (Or.inl rfl)
  · exact hmain _ h (Or.inr rfl)

/-- A success out of `afterLoopSeq` returns the state's result vector. -/
theorem afterLoopSeq_success (c : Ctx) (st : LoopSt) (r : List ℚ) (e : ℚ)
    (i : Option MoreInfo) (h : afterLoopSeq c st = QRes.success r e i) : r = st.result := by
  unfold afterLoopSeq at h
  split at h
  · exact absurd h (by simp)
  · unfold successPayload at h
    split at h <;>
    · simp only [QRes.success.injEq] at h
      exact h.1.symm

/-- A success out of the sequential loop has a result of the engine
dimension. -/
theorem mainLoopSeq_success_length (c : Ctx) (hqk : QkLen c) :
    ∀ (fuel : ℕ) (st : LoopSt) (r : List ℚ) (e : ℚ) (i : Option MoreInfo),
      mainLoopSeq c fuel st = QRes.success r e i → st.result.length = c.n →
      (∀ e2 ∈ st.cache, e2.2.length = c.n) → r.length = c.n := by
  intro fuel
  induction fuel with
  | zero => intro st r e i h _ _; simp [mainLoopSeq] at h
  | succ f ih =>
    intro st r e i h h1 h2
    simp only [mainLoopSeq] at h
    split at h
    · cases hstep : iterStepSeq c st with
      | ret r0 =>
        rw [hstep] at h
        subst h
        rcases iterStepSeq_ret_cases c st _ hstep with h3 | h3 <;> simp at h3
      | brk st2 =>
        rw [hstep] at h
        have hlen := iterStepSeq_lengths c hqk st st2 (Or.inr hstep) h1 h2
        rw [afterLoopSeq_success c st2 r e i h]
        exact hlen.1
      | cont st2 =>
        rw [hstep] at h
        have hlen := iterStepSeq_lengths c hqk st st2 (Or.inl hstep) h1 h2
        exact ih st2 r e i h hlen.1 hlen.2
    · rw [afterLoopSeq_success c st r e i h]
      exact h1

/-- The parallel batch pop keeps vector dimensions. -/
theorem batchPopParGo_lengths (c : Ctx) :
    ∀ (k : ℕ) (heap : List HeapItem) (cache : Cache) (ab eb es : ℚ)
      (tp0 : List (ℚ × ℚ)) (old0 : List ℚ) (tp : List (ℚ × ℚ)) (heap2 : List HeapItem)
      (cache2 : Cache) (es2 : ℚ) (oldRes : List ℚ),
      batchPopParGo k heap cache ab eb es tp0 old0 = ParPop.ok tp heap2 cache2 es2 oldRes →
      (∀ e ∈ cache, e.2.length = c.n) → old0.length = c.n →
      oldRes.length = c.n ∧ ∀ e ∈ cache2, e.2.length = c.n := by
  intro k
  induction k with
  | zero =>
    intro heap cache ab eb es tp0 old0 tp heap2 cache2 es2 oldRes h hc ho
    simp only [batchPopParGo, ParPop.ok.injEq] at h
    rcases h with ⟨_, _, h3, _, h5⟩
    subst h3
    subst h5
    exact ⟨ho, hc⟩
  | succ m ih =>
    intro heap cache ab eb es tp0 old0 tp heap2 cache2 es2 oldRes h hc ho
    simp only [batchPopParGo] at h
    split at h
    · simp only [ParPop.ok.injEq] at h
      rcases h with ⟨_, _, h3, _, h5⟩
      subst h3
      subst h5
      exact ⟨ho, hc⟩
    · rename_i it heap3 hpm
      split at h
      · exact absurd h (by simp)
      · split at h
        · exact absurd h (by simp)
        · rename_i v cache3 hrm
          have hvlen : v.length = c.n ∧ ∀ e ∈ cache3, e.2.length = c.n := by
            unfold cacheRemove at hrm
            cases hg : cacheGet cache it.iv with
            | none => rw [hg] at hrm; simp at hrm
            | some w =>
              rw [hg] at hrm
              simp only [Option.some.injEq, Prod.mk.injEq] at hrm
              constructor
              · rw [← hrm.1]
                exact hc (it.iv, w) (cacheGet_mem cache it.iv w hg)
              · intro e he
                rw [← hrm.2] at he
                exact hc e (cacheErase_mem cache it.iv e he)
          have holen : (add_vec old0 v).length = c.n := by
            simp [add_vec, List.length_zipWith, ho, hvlen.1]
          split at h
          · simp only [ParPop.ok.injEq] at h
            rcases h with ⟨_, _, h3, _, h5⟩
            subst h3
            subst h5
            exact ⟨holen, hvlen.2⟩
          · exact ih heap3 cache3 ab eb (es + it.err) _ _ tp heap2 cache2 es2 oldRes h
              hvlen.2 holen

/-- The parallel join fold keeps vector dimensions. -/
theorem foldNewStep_foldl_lengths (c : Ctx) :
    ∀ (news : List (Half × Half)) (acc : ParFoldAcc), acc.newRes.length = c.n →
      (∀ e ∈ acc.cache, e.2.length = c.n) →
      (∀ pr ∈ news, pr.1.res.length = c.n ∧ pr.2.res.length = c.n) →
      (news.foldl foldNewStep acc).newRes.length = c.n ∧
        ∀ e ∈ (news.foldl foldNewStep acc).cache, e.2.length = c.n := by
  intro news
  induction news with
  | nil => intro acc h1 h2 _; exact ⟨h1, h2⟩
  | cons pr prs ih =>
    intro acc h1 h2 h3
    rw [List.foldl_cons]
    refine ih (foldNewStep acc pr) ?_ ?_ (fun q hq => h3 q (List.mem_cons_of_mem pr hq))
    · have hp := h3 pr (List.mem_cons_self pr prs)
      simp [foldNewStep, add_vec, List.length_zipWith, h1, hp.1, hp.2]
    · intro e he
      have hp := h3 pr (List.mem_cons_self pr prs)
      simp only [foldNewStep] at he
      rcases cacheInsert_mem _ _ _ _ he with h4 | h4
      · rw [h4]; exact hp.2
      · rcases cacheInsert_mem _ _ _ _ h4 with h5 | h5
        · rw [h5]; exact hp.1
        · exact h2 e h5

/-- The halves evaluated by the workers have the engine dimension. -/
theorem parEval_lengths (c : Ctx) (hqk : QkLen c) (tp : List (ℚ × ℚ)) :
    ∀ pr ∈ parEval c tp, pr.1.res.length = c.n ∧ pr.2.res.length = c.n := by
  intro pr hpr
  rcases List.mem_map.mp hpr with ⟨p, _, hp⟩
  rw [← hp]
  exact ⟨rres_length c hqk _ _, rres_length c hqk _ _⟩

/-- A parallel loop iteration keeps the result length and cache-value
lengths. -/
theorem iterStepPar_lengths (c : Ctx) (hqk : QkLen c) (st : ParSt) (st2 : ParSt)
    (h : iterStepPar c st = ParStepOut.cont st2 ∨ iterStepPar c st = ParStepOut.brk st2)
    (h1 : st.result.length = c.n) (h2 : ∀ e ∈ st.cache, e.2.length = c.n) :
    st2.result.length = c.n ∧ ∀ e ∈ st2.cache, e.2.length = c.n := by
  have hmain : ∀ r, iterStepPar c st = r →
      (r = ParStepOut.cont st2 ∨ r = ParStepOut.brk st2) →
      st2.result.length = c.n ∧ ∀ e ∈ st2.cache, e.2.length = c.n := by
    intro r hr hcase
    unfold iterStepPar at hr
    cases hb : batchPopPar c.n st with
    | miss =>
      rw [hb] at hr
      subst hr
      rcases hcase with h3 | h3 <;> exact absurd h3 (by simp)
    | bad =>
      rw [hb] at hr
      subst hr
      rcases hcase with h3 | h3 <;> exact absurd h3 (by simp)
    | ok tp heap2 cache2 errSum oldRes =>
      rw [hb] at hr
      have hpop := batchPopParGo_lengths c 128 st.heap st.cache st.abserr st.errbnd 0 []
        (zeros c.n) tp heap2 cache2 errSum oldRes hb h2 (by simp [zeros])
      have hfold := foldNewStep_foldl_lengths c (parEval c tp)
        { newRes := zeros c.n, newAbserr := 0, rounderr := st.rounderr, cache := cache2,
          heap := heap2 }
        (by simp [zeros]) hpop.2 (parEval_lengths c hqk tp)
      have hres : (add_vec (sub_vec st.result oldRes)
          (foldNew c.n st.rounderr cache2 heap2 (parEval c tp)).newRes).length = c.n := by
        unfold foldNew
        simp [add_vec, sub_vec, List.length_zipWith, h1, hpop.1, hfold.1]
      simp only [afterBatchPar] at hr
      repeat' split at hr
      all_goals subst hr
      all_goals rcases hcase with h3 | h3
      all_goals first
        | (rw [ParStepOut.brk.injEq] at h3; rw [← h3];
            exact ⟨hres, by unfold foldNew; exact hfold.2⟩)
        | (rw [ParStepOut.cont.injEq] at h3; rw [← h3];
            exact ⟨hres, by unfold foldNew; exact hfold.2⟩)
        | exact ParStepOut.noConfusion h3
  exact hmain _ rfl (by rcases h with h | h <;> rw [h] <;> simp)

/-- A success out of `successPayload` returns the supplied result vector. -/
theorem successPayload_success (c : Ctx) (r0 : List ℚ) (e0 ro : ℚ) (l : ℕ) (ch : Cache)
    (hp : List HeapItem) (r : List ℚ) (e : ℚ) (i : Option MoreInfo)
    (h : successPayload c r0 e0 ro l ch hp = QRes.success r e i) : r = r0 := by
  unfold successPayload at h
  split at h <;>
  · simp only [QRes.success.injEq] at h
    exact h.1.symm

/-- The possible `ret` values of a parallel loop iteration. -/
theorem iterStepPar_ret_cases (c : Ctx) (st : ParSt) (r : QRes)
    (h : iterStepPar c st = ParStepOut.ret r) :
    r = QRes.cacheMiss ∨ r = QRes.failure ResultState.BadFunction ∨
      r = QRes.failure ResultState.BadTolerance ∨
      r = QRes.failure ResultState.MaxIteration := by
  unfold iterStepPar at h
  cases hb : batchPopPar c.n st with
  | miss =>
    simp only [hb] at h
    simp only [ParStepOut.ret.injEq] at h
    exact Or.inl h.symm
  | bad =>
    simp only [hb] at h
    simp only [ParStepOut.ret.injEq] at h
    exact Or.inr (Or.inl h.symm)
  | ok tp heap2 cache2 errSum oldRes =>
    simp only [hb] at h
    rcases afterBatchPar_ret_cases c st tp heap2 cache2 errSum oldRes r h with h3 | h3
    · exact Or.inr (Or.inr (Or.inl h3))
    · exact Or.inr (Or.inr (Or.inr h3))

/-- A success out of the parallel loop has a result of the engine dimension. -/
theorem mainLoopPar_success_length (c : Ctx) (hqk : QkLen c) :
    ∀ (fuel : ℕ) (st : ParSt) (r : List ℚ) (e : ℚ) (i : Option MoreInfo),
      mainLoopPar c fuel st = QRes.success r e i → st.result.length = c.n →
      (∀ e2 ∈ st.cache, e2.2.length = c.n) → r.length = c.n := by
  intro fuel
  induction fuel with
  | zero => intro st r e i h _ _; simp [mainLoopPar] at h
  | succ f ih =>
    intro st r e i h h1 h2
    simp only [mainLoopPar] at h
    split at h
    · cases hstep : iterStepPar c st with
      | ret r0 =>
        rw [hstep] at h
        subst h
        rcases iterStepPar_ret_cases c st _ hstep with h3 | h3 | h3 | h3 <;> simp at h3
      | brk st2 =>
        rw [hstep] at h
        have hlen := iterStepPar_lengths c hqk st st2 (Or.inr hstep) h1 h2
        rw [successPayload_success c st2.result st2.abserr st2.rounderr st2.last st2.cache
          st2.heap r e i h]
        exact hlen.1
      | cont st2 =>
        rw [hstep] at h
        have hlen := iterStepPar_lengths c hqk st st2 (Or.inl hstep) h1 h2
        exact ih st2 r e i h hlen.1 hlen.2
    · rw [successPayload_success c st.result st.abserr st.rounderr st.last st.cache
        st.heap r e i h]
      exact h1

/-- C10.  Both engines size every vector from `f(0.0)`: whenever a run (of
the sequential or the parallel engine) that passed tolerance validation
returns success, the result vector has length `f(0.0).len()` — the dimension
probed at `0.0` before any interval is processed, whether or not `0` lies in
`[a, b]` (assuming the rule functions respect that dimension). -/
theorem c10_dimension_from_f0 :
    (∀ (qk : ℤ → ℚ → ℚ → List ℚ × ℚ × ℚ) (nv : List ℚ → ℚ) (self : Qag)
        (f : ℚ → List ℚ) (a b epsabs epsrel : ℚ) (r : List ℚ) (e : ℚ) (i : Option MoreInfo),
      (∀ k x y, ((qk k x y).1).length = (f 0).length) →
      qintegrateF qk nv self f a b epsabs epsrel = QRes.success r e i →
      r.length = (f 0).length) ∧
    (∀ (qk : ℤ → ℚ → ℚ → List ℚ × ℚ × ℚ) (nv : List ℚ → ℚ) (self : QagPar)
        (f : ℚ → List ℚ) (a b epsabs epsrel : ℚ) (r : List ℚ) (e : ℚ) (i : Option MoreInfo),
      (∀ k x y, ((qk k x y).1).length = (f 0).length) →
      qintegrateParF qk nv self f a b epsabs epsrel = QRes.success r e i →
      r.length = (f 0).length) := by
  constructor
  · intro qk nv self f a b epsabs epsrel r e i hqk h
    unfold qintegrateF at h
    simp only [qintegrate] at h
    have hqk2 : QkLen (mkCtx qk nv self.key self.limit self.more_info (f 0).length
        epsabs epsrel) := hqk
    have hinit := initState_lengths _ hqk2 a b self.points
    split at h
    · exact absurd h (by simp)
    · split at h
      · rw [successPayload_success _ _ _ _ _ _ _ r e i h]
        exact hinit.1
      · split at h
        · exact absurd h (by simp)
        · split at h
          · exact absurd h (by simp)
          · exact mainLoopSeq_success_length _ hqk2 self.limit _ r e i h hinit.1 hinit.2
  · intro qk nv self f a b epsabs epsrel r e i hqk h
    unfold qintegrateParF at h
    simp only [qintegratePar] at h
    have hqk2 : QkLen (mkCtx qk nv self.key self.limit self.more_info (f 0).length
        epsabs epsrel) := hqk
    have hinit := initState_lengths _ hqk2 a b self.points
    split at h
    · exact absurd h (by simp)
    · split at h
      · rw [successPayload_success _ _ _ _ _ _ _ r e i h]
        exact hinit.1
      · split at h
        · exact absurd h (by simp)
        · split at h
          · exact absurd h (by simp)
          · exact mainLoopPar_success_length _ hqk2 self.limit _ r e i h hinit.1 hinit.2

/-- C10 (witness): a concrete early-exit success with `0` outside `[a, b]`
has a result vector of length `f(0.0).len() = 1`. -/
theorem c10_dimension_from_f0_witness : ([(0 : ℚ)]).length = ((fun _ : ℚ => [(0 : ℚ)]) 0).length :=
  c10_dimension_from_f0.1 qkZero nv0 ⟨2, 50, [], true⟩ (fun _ => [0]) 1 2 1 0
    [0] 0 (some ⟨21, 1, [((1, 2), [0])], [⟨(1, 2), 0⟩]⟩)
    (fun _ _ _ => rfl)
    (by norm_num [qintegrateF, qintegrate, mkCtx, clampKey, initLoopState, initState,
      initialIntervals, List.insertionSort, initialIntervalsGo, initSeg, add_res, zeros,
      rres, rerr, rrnd, ruleEval, qkZero, nv0, EPMACH, successPayload, nevalCalc,
      cacheInsert, cacheErase])

/-- Pointwise value of `add_res` below both lengths. -/
theorem add_res_getD (v w : List ℚ) (i : ℕ) (hv : i < v.length) (hw : i < w.length) :
    (add_res v w).getD i 0 = v.getD i 0 + w.getD i 0 := by
  have hl : i < (add_res v w).length := by
    simp [add_res, List.length_zipWith]
    exact ⟨hv, hw⟩
  rw [List.getD_eq_getElem _ _ hl, List.getD_eq_getElem _ _ hv, List.getD_eq_getElem _ _ hw]
  simp [add_res]

/-- Pointwise value of `res_update` below all lengths. -/
theorem res_update_getD :
    ∀ (v w z y : List ℚ) (i : ℕ), i < v.length → i < w.length → i < z.length →
      i < y.length →
      (res_update v w z y).getD i 0 = v.getD i 0 + w.getD i 0 + z.getD i 0 - y.getD i 0 := by
  intro v
  induction v with
  | nil => intro w z y i hv; simp at hv
  | cons a v ih =>
    intro w z y i hv hw hz hy
    cases w with
    | nil => simp at hw
    | cons b w =>
      cases z with
      | nil => simp at hz
      | cons d z =>
        cases y with
        | nil => simp at hy
        | cons e y =>
          cases i with
          | zero => simp [res_update]
          | succ j =>
            simp only [res_update, List.getD_cons_succ]
            exact ih w z y j (by simpa using hv) (by simpa using hw) (by simpa using hz)
              (by simpa using hy)

/-- `vsum` of same-length vectors has that length. -/
theorem vsum_length (n : ℕ) :
    ∀ (l : List (List ℚ)), (∀ v ∈ l, v.length = n) → (vsum n l).length = n := by
  intro l
  induction l with
  | nil => intro _; simp [vsum, zeros]
  | cons v vs ih =>
    intro h
    have h1 := ih (fun w hw => h w (List.mem_cons_of_mem v hw))
    have h2 := h v (List.mem_cons_self v vs)
    simp [vsum, add_res, List.length_zipWith, h1, h2]

/-- Pointwise value of `vsum` over same-length vectors. -/
theorem vsum_getD (n : ℕ) :
    ∀ (l : List (List ℚ)) (i : ℕ), i < n → (∀ v ∈ l, v.length = n) →
      (vsum n l).getD i 0 = (l.map (fun v => v.getD i 0)).sum := by
  intro l
  induction l with
  | nil =>
    intro i hi _
    have hlen : i < (zeros n).length := by simp [zeros]; exact hi
    show (zeros n).getD i 0 = _
    rw [List.getD_eq_getElem _ _ hlen]
    simp [zeros]
  | cons v vs ih =>
    intro i hi h
    have h1 : (vsum n vs).length = n := vsum_length n vs (fun w hw => h w (List.mem_cons_of_mem v hw))
    rw [vsum, add_res_getD _ _ i (by rw [h1]; exact hi) (by rw [h v (List.mem_cons_self v vs)]; exact hi)]
    rw [ih i hi (fun w hw => h w (List.mem_cons_of_mem v hw))]
    simp [add_comm]

/-- Two lists of the same length with equal `getD` values agree. -/
theorem list_ext_getD (v w : List ℚ) (hv : v.length = w.length)
    (h : ∀ i < v.length, v.getD i 0 = w.getD i 0) : v = w := by
  apply List.ext_getElem hv
  intro i h1 h2
  have := h i h1
  rwa [List.getD_eq_getElem _ _ h1, List.getD_eq_getElem _ _ h2] at this

/-- Cache lookup after an insert. -/
theorem cacheGet_insert (c : Cache) (k : ℚ × ℚ) (v : List ℚ) (k2 : ℚ × ℚ) :
    cacheGet (cacheInsert c k v) k2 = if k2 = k then some v else cacheGet c k2 := by
  unfold cacheInsert
  by_cases h : k2 = k
  · simp [cacheGet, h]
  · have h2 : ¬(k = k2) := fun hc => h hc.symm
    simp only [cacheGet]
    rw [cacheGet_erase]
    simp [h, h2]

/-- When every heap interval's cached value is its rule result, the cached
sum is the rule-result sum. -/
theorem heapCachedSum_eq (c : Ctx) (cache : Cache) (heap : List HeapItem)
    (h : ∀ it ∈ heap, cacheGet cache it.iv = some (rres c it.iv.1 it.iv.2)) :
    heapCachedSum c.n cache heap = vsum c.n (heap.map fun it => rres c it.iv.1 it.iv.2) := by
  unfold heapCachedSum
  congr 1
  apply List.map_congr_left
  intro it hit
  unfold cachedRes
  rw [h it hit]
  rfl

/-- Interval disjointness is symmetric. -/
theorem ivDisj_symm : ∀ (p q : ℚ × ℚ), ivDisj p q → ivDisj q p := by
  intro p q h
  unfold ivDisj at h ⊢
  rw [min_comm (max q.1 q.2) (max p.1 p.2), max_comm (min q.1 q.2) (min p.1 p.2)]
  exact h

/-- The midpoint lies in the hull. -/
theorem mid_bounds (x y : ℚ) : min x y ≤ (x + y) / 2 ∧ (x + y) / 2 ≤ max x y := by
  rcases le_total x y with h | h
  · rw [min_eq_left h, max_eq_right h]
    constructor <;> linarith
  · rw [min_eq_right h, max_eq_left h]
    constructor <;> linarith

/-- The left half's hull is inside the parent's hull. -/
theorem half1_bounds (x y : ℚ) :
    min x y ≤ min x ((x + y) / 2) ∧ max x ((x + y) / 2) ≤ max x y := by
  constructor
  · exact le_min (min_le_left x y) (mid_bounds x y).1
  · exact max_le (le_max_left x y) (mid_bounds x y).2

/-- The right half's hull is inside the parent's hull. -/
theorem half2_bounds (x y : ℚ) :
    min x y ≤ min ((x + y) / 2) y ∧ max ((x + y) / 2) y ≤ max x y := by
  constructor
  · exact le_min (mid_bounds x y).1 (min_le_right x y)
  · exact max_le (mid_bounds x y).2 (le_max_right x y)

/-- A sub-hull inherits disjointness. -/
theorem ivDisj_mono (q h r : ℚ × ℚ) (h1 : min q.1 q.2 ≤ min h.1 h.2)
    (h2 : max h.1 h.2 ≤ max q.1 q.2) (hd : ivDisj q r) : ivDisj h r := by
  unfold ivDisj at hd ⊢
  calc min (max h.1 h.2) (max r.1 r.2) ≤ min (max q.1 q.2) (max r.1 r.2) :=
        min_le_min h2 (le_refl _)
    _ ≤ max (min q.1 q.2) (min r.1 r.2) := hd
    _ ≤ max (min h.1 h.2) (min r.1 r.2) := max_le_max h1 (le_refl _)

/-- The two halves of a bisected interval are disjoint. -/
theorem halves_ivDisj (x y : ℚ) : ivDisj (x, (x + y) / 2) ((x + y) / 2, y) := by
  show min (max x ((x + y) / 2)) (max ((x + y) / 2) y) ≤
    max (min x ((x + y) / 2)) (min ((x + y) / 2) y)
  rcases le_total x y with h | h
  · have h1 : x ≤ (x + y) / 2 := by linarith
    have h2 : (x + y) / 2 ≤ y := by linarith
    rw [max_eq_right h1, min_eq_left h2]
    calc min ((x + y) / 2) (max ((x + y) / 2) y) = (x + y) / 2 :=
          min_eq_left (le_max_left _ _)
      _ ≤ max (min x ((x + y) / 2)) ((x + y) / 2) := le_max_right _ _
  · have h1 : (x + y) / 2 ≤ x := by linarith
    have h2 : y ≤ (x + y) / 2 := by linarith
    rw [max_eq_left h1, max_eq_left h2, min_eq_right h1]
    exact le_max_left _ _

/-- Two equal non-degenerate keys are not disjoint: self-disjointness forces
degeneracy. -/
theorem ivDisj_self (p : ℚ × ℚ) (h : ivDisj p p) : p.1 = p.2 := by
  unfold ivDisj at h
  simp only [min_self, max_self] at h
  rcases le_total p.1 p.2 with h2 | h2
  · rw [max_eq_right h2, min_eq_left h2] at h
    exact le_antisymm h2 h
  · rw [max_eq_left h2, min_eq_right h2] at h
    exact (le_antisymm h2 h).symm

/-- The partition chain is ordered: every interval starts at or after `prev`,
and each interval ends before the next begins. -/
theorem initialIntervalsGo_ordered (a b : ℚ) :
    ∀ (l : List ℚ) (prev : ℚ), List.Sorted (fun x y => x ≤ y) l →
      (∀ q ∈ l, a < q → prev ≤ q) →
      (∀ p ∈ initialIntervalsGo a b prev l, prev ≤ p.1) ∧
      List.Pairwise (fun p q => p.2 ≤ q.1) (initialIntervalsGo a b prev l) := by
  intro l
  induction l with
  | nil =>
    intro prev _ _
    constructor
    · intro p hp
      simp only [initialIntervalsGo, List.mem_singleton] at hp
      rw [hp]
    · simp [initialIntervalsGo]
  | cons q qs ih =>
    intro prev hsort hprev
    rw [List.sorted_cons] at hsort
    simp only [initialIntervalsGo]
    by_cases hq : a < q ∧ q < b
    · rw [if_pos hq]
      have hih := ih q hsort.2 (fun r hr _ => hsort.1 r hr)
      have hpq : prev ≤ q := hprev q (List.mem_cons_self q qs) hq.1
      constructor
      · intro p hp
        rcases List.mem_cons.mp hp with h1 | h1
        · rw [h1]
        · exact le_trans hpq (hih.1 p h1)
      · rw [List.pairwise_cons]
        exact ⟨fun p hp => hih.1 p hp, hih.2⟩
    · rw [if_neg hq]
      exact ih prev hsort.2 (fun r hr har => hprev r (List.mem_cons_of_mem q hr) har)

/-- With no accepted point, the chain is a single interval. -/
theorem initialIntervalsGo_noacc (a b : ℚ) :
    ∀ (l : List ℚ) (prev : ℚ), (∀ q ∈ l, ¬(a < q ∧ q < b)) →
      initialIntervalsGo a b prev l = [(prev, b)] := by
  intro l
  induction l with
  | nil => intro prev _; rfl
  | cons q qs ih =>
    intro prev h
    simp only [initialIntervalsGo]
    rw [if_neg (h q (List.mem_cons_self q qs))]
    exact ih prev (fun r hr => h r (List.mem_cons_of_mem q hr))

/-- The initial partition consists of pairwise disjoint interval hulls. -/
theorem initialIntervals_ivDisj (a b : ℚ) (pts : List ℚ) :
    List.Pairwise (fun p q => ivDisj p q) (initialIntervals a b pts) := by
  unfold initialIntervals
  by_cases he : (List.insertionSort (fun x y => x ≤ y) pts).isEmpty
  · simp [he]
  · simp only [he, if_neg, Bool.false_eq_true, not_false_eq_true]
    by_cases hab : a < b
    · have hord := initialIntervalsGo_ordered a b
        (List.insertionSort (fun x y => x ≤ y) pts) a
        (List.sorted_insertionSort (fun x y => x ≤ y) pts) (fun q _ hq => le_of_lt hq)
      have hle := initialIntervalsGo_le a b (List.insertionSort (fun x y => x ≤ y) pts) a hab
        (List.sorted_insertionSort (fun x y => x ≤ y) pts) (fun q _ hq => le_of_lt hq)
      refine hord.2.imp_of_mem ?_
      intro p q hp hq hpq
      unfold ivDisj
      have h1 : max p.1 p.2 = p.2 := max_eq_right (hle p hp)
      have h2 : min q.1 q.2 = q.1 := min_eq_left (hle q hq)
      calc min (max p.1 p.2) (max q.1 q.2) ≤ max p.1 p.2 := min_le_left _ _
        _ = p.2 := h1
        _ ≤ q.1 := hpq
        _ = min q.1 q.2 := h2.symm
        _ ≤ max (min p.1 p.2) (min q.1 q.2) := le_max_right _ _
    · rw [initialIntervalsGo_noacc a b _ a (fun q _ hc => hab (lt_trans hc.1 hc.2))]
      simp

/-- The initial-partition fold establishes the engine invariant, given the
invariant on the part already folded and disjointness of what remains. -/
theorem initSeg_foldl_good (c : Ctx) (hqk : QkLen c) :
    ∀ (segs : List (ℚ × ℚ)) (st : LoopSt),
      st.result.length = c.n →
      (∀ it ∈ st.heap, cacheGet st.cache it.iv = some (rres c it.iv.1 it.iv.2)) →
      st.result = vsum c.n (st.heap.map fun it => rres c it.iv.1 it.iv.2) →
      st.abserr = heapErrSum st.heap →
      List.Pairwise (fun p q => ivDisj p q) (st.heap.map HeapItem.iv ++ segs) →
      GoodSeq c (segs.foldl (initSeg c) st) := by
  intro segs
  induction segs with
  | nil =>
    intro st h1 h2 h3 h4 h5
    simp only [List.foldl_nil]
    refine ⟨h1, h2, ?_, h4, ?_⟩
    · rw [heapCachedSum_eq c st.cache st.heap h2]
      exact h3
    · rw [List.append_nil] at h5
      exact (List.pairwise_map.mp h5)
  | cons s ss ih =>
    intro st h1 h2 h3 h4 h5
    rw [List.foldl_cons]
    have hlen2 : (initSeg c st s).result.length = c.n := by
      simp [initSeg, add_res, List.length_zipWith, h1, rres_length c hqk]
    refine ih (initSeg c st s) hlen2 ?_ ?_ ?_ ?_
    · intro it hit
      simp only [initSeg] at hit ⊢
      rw [cacheGet_insert]
      rcases List.mem_append.mp hit with hold | hnew
      · by_cases hiv : it.iv = s
        · rw [if_pos hiv, hiv]
        · rw [if_neg hiv]
          exact h2 it hold
      · simp only [List.mem_singleton] at hnew
        rw [hnew]
        simp
    · simp only [initSeg]
      have hl1 : ∀ v ∈ (st.heap ++ [(⟨s, rerr c s.1 s.2⟩ : HeapItem)]).map
          (fun it => rres c it.iv.1 it.iv.2), v.length = c.n := by
        intro v hv
        rcases List.mem_map.mp hv with ⟨it, _, hit⟩
        rw [← hit]
        exact rres_length c hqk _ _
      have hl0 : ∀ v ∈ st.heap.map (fun it => rres c it.iv.1 it.iv.2), v.length = c.n := by
        intro v hv
        rcases List.mem_map.mp hv with ⟨it, _, hit⟩
        rw [← hit]
        exact rres_length c hqk _ _
      apply list_ext_getD
      · rw [vsum_length c.n _ hl1]
        simp [add_res, List.length_zipWith, h1, rres_length c hqk]
      · intro i hi
        have hin : i < c.n := by
          simpa [add_res, List.length_zipWith, h1, rres_length c hqk] using hi
        rw [add_res_getD _ _ i (by rw [h1]; exact hin) (by rw [rres_length c hqk]; exact hin)]
        rw [vsum_getD c.n _ i hin hl1]
        have := vsum_getD c.n (st.heap.map fun it => rres c it.iv.1 it.iv.2) i hin hl0
        rw [h3, this]
        simp [List.map_append, List.map_map, Function.comp]
    · simp only [initSeg, heapErrSum, List.map_append, List.sum_append]
      rw [h4]
      simp [heapErrSum]
    · simp only [initSeg, List.map_append, List.map_cons, List.map_nil, List.append_assoc,
        List.cons_append, List.nil_append]
      simpa using h5

/-- C1 (establishment): the invariant holds after the initial partitioning. -/
theorem GoodSeq_init (c : Ctx) (hqk : QkLen c) (a b : ℚ) (pts : List ℚ) :
    GoodSeq c (initLoopState c a b pts) := by
  have hgood : GoodSeq c (initState c a b pts) := by
    unfold initState
    apply initSeg_foldl_good c hqk
    · simp [zeros]
    · intro it hit; simp at hit
    · rfl
    · rfl
    · simp only [List.map_nil, List.nil_append]
      exact initialIntervals_ivDisj a b pts
  unfold initLoopState
  exact hgood

/-- Full postcondition of the sequential batch pop: the popped entries
extend the accumulator, they are removed from heap and cache, their values
were read from the incoming cache, and `err_sum` adds up their errors. -/
theorem batchPopGo_spec :
    ∀ (k : ℕ) (heap : List HeapItem) (cache : Cache) (ab eb es : ℚ) (acc : List Popped)
      (tp : List Popped) (heap2 : List HeapItem) (cache2 : Cache) (es2 : ℚ),
      batchPopGo k heap cache ab eb es acc = some (tp, heap2, cache2, es2) →
      ∃ popped : List Popped,
        tp = acc ++ popped ∧
        heap.Perm (popped.map toHeapItem ++ heap2) ∧
        es2 = es + (popped.map Popped.err).sum ∧
        (∀ p ∈ popped, cacheGet cache (p.x, p.y) = some p.res) ∧
        (∀ k2, cacheGet cache2 k2 =
          if k2 ∈ popped.map (fun p => (p.x, p.y)) then none else cacheGet cache k2) := by
  intro k
  induction k with
  | zero =>
    intro heap cache ab eb es acc tp heap2 cache2 es2 h
    simp only [batchPopGo, Option.some.injEq, Prod.mk.injEq] at h
    rcases h with ⟨h1, h2, h3, h4⟩
    refine ⟨[], by simp [h1.symm], by simp [h2.symm], by simp [h4.symm], by simp, ?_⟩
    intro k2
    simp [h3.symm]
  | succ m ih =>
    intro heap cache ab eb es acc tp heap2 cache2 es2 h
    simp only [batchPopGo] at h
    split at h
    · simp only [Option.some.injEq, Prod.mk.injEq] at h
      rcases h with ⟨h1, h2, h3, h4⟩
      refine ⟨[], by simp [h1.symm], by simp [h2.symm], by simp [h4.symm], by simp, ?_⟩
      intro k2
      simp [h3.symm]
    · rename_i it heap3 hpm
      split at h
      · exact absurd h (by simp)
      · rename_i v cache3 hrm
        have hget : cacheGet cache it.iv = some v ∧ cache3 = cacheErase cache it.iv := by
          unfold cacheRemove at hrm
          cases hg : cacheGet cache it.iv with
          | none => rw [hg] at hrm; simp at hrm
          | some w =>
            rw [hg] at hrm
            simp only [Option.some.injEq, Prod.mk.injEq] at hrm
            exact ⟨by rw [hrm.1], hrm.2.symm⟩
        have hperm := popMax_perm heap it heap3 hpm
        split at h
        · simp only [Option.some.injEq, Prod.mk.injEq] at h
          rcases h with ⟨h1, h2, h3, h4⟩
          refine ⟨[⟨it.iv.1, it.iv.2, it.err, v⟩], by rw [← h1], ?_, by rw [← h4]; simp, ?_, ?_⟩
          · rw [← h2]
            simpa [toHeapItem] using hperm
          · intro p hp
            simp only [List.mem_singleton] at hp
            rw [hp]
            simpa using hget.1
          · intro k2
            rw [← h3, hget.2, cacheGet_erase]
            by_cases hk : k2 = it.iv
            · simp [hk]
            · rw [if_neg hk, if_neg (by simpa using hk)]
        · rcases ih heap3 cache3 ab eb (es + it.err) _ tp heap2 cache2 es2 h with
            ⟨popped, hp1, hp2, hp3, hp4, hp5⟩
          refine ⟨⟨it.iv.1, it.iv.2, it.err, v⟩ :: popped, ?_, ?_, ?_, ?_, ?_⟩
          · rw [hp1, List.append_assoc]
            rfl
          · refine List.Perm.trans hperm ?_
            exact hp2.cons it
          · rw [hp3, List.map_cons, List.sum_cons]
            show es + it.err + _ = es + (it.err + _)
            ring
          · intro p hp
            rcases List.mem_cons.mp hp with h5 | h5
            · rw [h5]
              simpa using hget.1
            · have hread := hp4 p h5
              rw [hget.2, cacheGet_erase] at hread
              split at hread
              · exact absurd hread (by simp)
              · exact hread
          · intro k2
            rw [hp5 k2, hget.2, cacheGet_erase]
            simp only [List.map_cons, List.mem_cons]
            by_cases hmem : k2 ∈ popped.map (fun p => (p.x, p.y))
            · simp [hmem]
            · rw [if_neg hmem]
              by_cases hk : k2 = it.iv
              · rw [if_pos hk, if_pos (by left; rw [hk])]
              · rw [if_neg hk, if_neg ?_]
                intro hc
                rcases hc with hc | hc
                · exact hk (by simpa using hc)
                · exact hmem hc

/-- C5 (witness): the `iroff1` characterisation at a concrete batch. -/
theorem c5_stagnation_guards_witness :
    iroff1Cond [0] [0] 0 0 = true ↔
      ((∀ k < (1 : ℕ), |([(0 : ℚ)]).getD k 0 - ([(0 : ℚ)]).getD k 0| ≤
        1 / 100000 * |([(0 : ℚ)]).getD k 0|) ∧ 99 / 100 * (0 : ℚ) ≤ 0) :=
  c5_stagnation_guards.1 [0] [0] 0 0 (by norm_num)

/-- The refinement fold appends exactly the two bisection halves of every
popped interval to the heap. -/
theorem processComps_heap (c : Ctx) :
    ∀ (tp : List Popped) (st : LoopSt),
      (processComps c st tp).heap = st.heap ++ (tp.map (halfItems c)).flatten := by
  intro tp
  induction tp with
  | nil => intro st; simp [processComps]
  | cons p ps ih =>
    intro st
    show ((p :: ps).foldl (processOne c) st).heap = _
    rw [List.foldl_cons]
    have h2 := ih (processOne c st p)
    rw [processComps] at h2
    rw [h2]
    simp only [processOne, halfItems, List.map_cons, List.flatten_cons]
    rw [List.append_assoc]

/-- The refinement fold moves `abserr` by the error balance of every popped
interval: minus the popped error, plus the two half errors. -/
theorem processComps_abserr (c : Ctx) :
    ∀ (tp : List Popped) (st : LoopSt),
      (processComps c st tp).abserr =
        st.abserr + (tp.map fun p =>
          -p.err + rerr c p.x ((p.x + p.y) / 2) + rerr c ((p.x + p.y) / 2) p.y).sum := by
  intro tp
  induction tp with
  | nil => intro st; simp [processComps]
  | cons p ps ih =>
    intro st
    show ((p :: ps).foldl (processOne c) st).abserr = _
    rw [List.foldl_cons]
    have h2 := ih (processOne c st p)
    rw [processComps] at h2
    rw [h2]
    simp only [processOne, List.map_cons, List.sum_cons]
    ring

/-- Cache reads after the refinement fold: the fresh half keys hold their
rule results, everything else is read from the incoming cache. -/
theorem processComps_cacheGet (c : Ctx) :
    ∀ (tp : List Popped) (st : LoopSt) (k2 : ℚ × ℚ),
      cacheGet (processComps c st tp).cache k2 =
        if k2 ∈ (tp.map halfKeys).flatten then some (rres c k2.1 k2.2)
        else cacheGet st.cache k2 := by
  intro tp
  induction tp with
  | nil => intro st k2; simp [processComps]
  | cons p ps ih =>
    intro st k2
    show cacheGet ((p :: ps).foldl (processOne c) st).cache k2 = _
    rw [List.foldl_cons]
    have h2 := ih (processOne c st p) k2
    rw [processComps] at h2
    rw [h2]
    have hone : cacheGet (processOne c st p).cache k2 =
        if k2 = ((p.x + p.y) / 2, p.y) then some (rres c ((p.x + p.y) / 2) p.y)
        else if k2 = (p.x, (p.x + p.y) / 2) then some (rres c p.x ((p.x + p.y) / 2))
        else cacheGet st.cache k2 := by
      simp only [processOne]
      rw [cacheGet_insert, cacheGet_insert]
    rw [hone]
    by_cases hrest : k2 ∈ (ps.map halfKeys).flatten
    · rw [if_pos hrest, if_pos ?_]
      simp only [List.map_cons, List.flatten_cons]
      exact List.mem_append_right _ hrest
    · rw [if_neg hrest]
      by_cases hB : k2 = ((p.x + p.y) / 2, p.y)
      · subst hB
        have hmemB : ((p.x + p.y) / 2, p.y) ∈ ((p :: ps).map halfKeys).flatten := by
          simp only [List.map_cons, List.flatten_cons, halfKeys]
          exact List.mem_append_left _ (by simp)
        rw [if_pos rfl, if_pos hmemB]
      · rw [if_neg hB]
        by_cases hA : k2 = (p.x, (p.x + p.y) / 2)
        · subst hA
          have hmemA : (p.x, (p.x + p.y) / 2) ∈ ((p :: ps).map halfKeys).flatten := by
            simp only [List.map_cons, List.flatten_cons, halfKeys]
            exact List.mem_append_left _ (by simp)
          rw [if_pos rfl, if_pos hmemA]
        · rw [if_neg hA, if_neg ?_]
          simp only [List.map_cons, List.flatten_cons, halfKeys]
          intro hc
          rcases List.mem_append.mp hc with hc | hc
          · simp only [List.mem_cons, List.not_mem_nil, or_false] at hc
            rcases hc with hc | hc
            · exact hA hc
            · exact hB hc
          · exact hrest hc

/-- Pointwise value and length of the result vector after the refinement
fold: each popped interval contributes the two half results minus its own. -/
theorem processComps_result (c : Ctx) (hqk : QkLen c) :
    ∀ (tp : List Popped) (st : LoopSt), st.result.length = c.n →
      (∀ p ∈ tp, p.res.length = c.n) →
      (processComps c st tp).result.length = c.n ∧
      ∀ i, i < c.n → (processComps c st tp).result.getD i 0 =
        st.result.getD i 0 + (tp.map fun p =>
          (rres c p.x ((p.x + p.y) / 2)).getD i 0 +
            (rres c ((p.x + p.y) / 2) p.y).getD i 0 - p.res.getD i 0).sum := by
  intro tp
  induction tp with
  | nil =>
    intro st h1 h2
    exact ⟨h1, by intro i hi; simp [processComps]⟩
  | cons p ps ih =>
    intro st h1 h2
    have hlen1 : (processOne c st p).result.length = c.n := by
      simp only [processOne]
      rw [res_update_length]
      · exact h1
      · rw [h1, rres_length c hqk]
      · rw [rres_length c hqk, rres_length c hqk]
      · rw [rres_length c hqk, h2 p (List.mem_cons_self p ps)]
    have h3 := ih (processOne c st p) hlen1 (fun q hq => h2 q (List.mem_cons_of_mem p hq))
    constructor
    · show (processComps c (processOne c st p) ps).result.length = c.n
      exact h3.1
    · intro i hi
      show ((p :: ps).foldl (processOne c) st).result.getD i 0 = _
      rw [List.foldl_cons]
      have h4 := h3.2 i hi
      rw [processComps] at h4
      rw [h4]
      have hone : (processOne c st p).result.getD i 0 =
          st.result.getD i 0 + (rres c p.x ((p.x + p.y) / 2)).getD i 0 +
            (rres c ((p.x + p.y) / 2) p.y).getD i 0 - p.res.getD i 0 := by
        simp only [processOne]
        exact res_update_getD st.result _ _ p.res i (by rw [h1]; exact hi)
          (by rw [rres_length c hqk]; exact hi) (by rw [rres_length c hqk]; exact hi)
          (by rw [h2 p (List.mem_cons_self p ps)]; exact hi)
      rw [hone]
      simp only [List.map_cons, List.sum_cons]
      ring

/-- Summing any scalar attribute over the pushed half entries, interval by
interval. -/
theorem halfItems_flatten_sum (c : Ctx) (f : HeapItem → ℚ) :
    ∀ (tp : List Popped),
      (((tp.map (halfItems c)).flatten).map f).sum =
        (tp.map fun p =>
          f ⟨(p.x, (p.x + p.y) / 2), rerr c p.x ((p.x + p.y) / 2)⟩ +
            f ⟨((p.x + p.y) / 2, p.y), rerr c ((p.x + p.y) / 2) p.y⟩).sum := by
  intro tp
  induction tp with
  | nil => simp
  | cons p ps ih =>
    simp only [List.map_cons, List.flatten_cons, List.map_append, List.sum_append, ih,
      halfItems, List.map_nil, List.sum_cons, List.sum_nil]
    ring

/-- Splitting the per-interval result balance into its positive and negative
sums. -/
theorem popped_res_split (c : Ctx) (i : ℕ) :
    ∀ (tp : List Popped),
      (tp.map fun p => (rres c p.x ((p.x + p.y) / 2)).getD i 0 +
        (rres c ((p.x + p.y) / 2) p.y).getD i 0 - p.res.getD i 0).sum =
      (tp.map fun p => (rres c p.x ((p.x + p.y) / 2)).getD i 0 +
        (rres c ((p.x + p.y) / 2) p.y).getD i 0).sum -
        (tp.map fun p => p.res.getD i 0).sum := by
  intro tp
  induction tp with
  | nil => simp
  | cons p ps ih =>
    simp only [List.map_cons, List.sum_cons, ih]
    ring

/-- Splitting the per-interval error balance into its positive and negative
sums. -/
theorem popped_err_split (c : Ctx) :
    ∀ (tp : List Popped),
      (tp.map fun p =>
        -p.err + rerr c p.x ((p.x + p.y) / 2) + rerr c ((p.x + p.y) / 2) p.y).sum =
      (tp.map fun p =>
        rerr c p.x ((p.x + p.y) / 2) + rerr c ((p.x + p.y) / 2) p.y).sum -
        (tp.map Popped.err).sum := by
  intro tp
  induction tp with
  | nil => simp
  | cons p ps ih =>
    simp only [List.map_cons, List.sum_cons, ih]
    ring

/-- Each half entry has its hull inside the hull of the popped interval. -/
theorem halfItems_mem_bounds (c : Ctx) (p : Popped) (it : HeapItem)
    (h : it ∈ halfItems c p) :
    min p.x p.y ≤ min it.iv.1 it.iv.2 ∧ max it.iv.1 it.iv.2 ≤ max p.x p.y := by
  simp only [halfItems, List.mem_cons, List.not_mem_nil, or_false] at h
  rcases h with h | h
  · rw [h]
    exact half1_bounds p.x p.y
  · rw [h]
    exact half2_bounds p.x p.y

/-- Each half entry carries one of the two half keys, with the matching rule
error. -/
theorem halfItems_mem_key (c : Ctx) (p : Popped) (it : HeapItem)
    (h : it ∈ halfItems c p) :
    it.iv ∈ halfKeys p ∧ it.err = rerr c it.iv.1 it.iv.2 := by
  simp only [halfItems, List.mem_cons, List.not_mem_nil, or_false] at h
  rcases h with h | h <;> rw [h] <;> exact ⟨by simp [halfKeys], rfl⟩

/-- Disjointness of the popped intervals carries over to all the pushed half
entries. -/
theorem pairwise_halfItems (c : Ctx) :
    ∀ (tp : List Popped),
      List.Pairwise (fun i j => ivDisj i.iv j.iv) (tp.map toHeapItem) →
      List.Pairwise (fun i j => ivDisj i.iv j.iv) ((tp.map (halfItems c)).flatten) := by
  intro tp
  induction tp with
  | nil => intro _; simp
  | cons p ps ih =>
    intro h
    simp only [List.map_cons, List.pairwise_cons] at h
    simp only [List.map_cons, List.flatten_cons]
    rw [List.pairwise_append]
    refine ⟨?_, ih h.2, ?_⟩
    · refine List.Pairwise.cons ?_ (List.pairwise_singleton _ _)
      intro b hb
      simp only [List.mem_singleton] at hb
      rw [hb]
      exact halves_ivDisj p.x p.y
    · intro x hx y hy
      rcases List.mem_flatten.mp hy with ⟨l, hl, hyl⟩
      rcases List.mem_map.mp hl with ⟨q, hq, hql⟩
      rw [← hql] at hyl
      have hpq : ivDisj (toHeapItem p).iv (toHeapItem q).iv :=
        h.1 (toHeapItem q) (List.mem_map_of_mem toHeapItem hq)
      have hb1 := halfItems_mem_bounds c p x hx
      have hb2 := halfItems_mem_bounds c q y hyl
      have hx1 : ivDisj x.iv (toHeapItem q).iv :=
        ivDisj_mono (toHeapItem p).iv x.iv (toHeapItem q).iv hb1.1 hb1.2 hpq
      have hx2 : ivDisj (toHeapItem q).iv x.iv := ivDisj_symm _ _ hx1
      have hx3 : ivDisj y.iv x.iv :=
        ivDisj_mono (toHeapItem q).iv y.iv x.iv hb2.1 hb2.2 hx2
      exact ivDisj_symm _ _ hx3

/-- C1 (preservation core): one pop-bisect-push round keeps the invariant —
from a good state, after a successful batch pop and the refinement fold the
state is good again. -/
theorem GoodSeq_processed (c : Ctx) (hqk : QkLen c) (st : LoopSt) (hg : GoodSeq c st)
    (tp : List Popped) (heap2 : List HeapItem) (cache2 : Cache) (es2 : ℚ)
    (hb : batchPopSeq st = some (tp, heap2, cache2, es2)) :
    GoodSeq c (processComps c { st with heap := heap2, cache := cache2 } tp) := by
  obtain ⟨hlen, hcoh, hS, hE, hPW⟩ := hg
  have hb2 : batchPopGo 128 st.heap st.cache st.abserr st.errbnd 0 [] =
      some (tp, heap2, cache2, es2) := hb
  obtain ⟨tp2, hp1, hperm, hsum, hread, hcache⟩ :=
    batchPopGo_spec 128 st.heap st.cache st.abserr st.errbnd 0 [] tp heap2 cache2 es2 hb2
  rw [List.nil_append] at hp1
  subst hp1
  have hPW2 : List.Pairwise (fun i j => ivDisj i.iv j.iv) (tp.map toHeapItem ++ heap2) :=
    (hperm.pairwise_iff (fun hab => ivDisj_symm _ _ hab)).mp hPW
  rw [List.pairwise_append] at hPW2
  obtain ⟨hPWtp, hPWh2, hAcross⟩ := hPW2
  have hmem_st : ∀ x ∈ tp.map toHeapItem ++ heap2, x ∈ st.heap :=
    fun x hx => hperm.mem_iff.mpr hx
  have hres_eq : ∀ p ∈ tp, p.res = rres c p.x p.y := by
    intro p hp
    have h1 := hread p hp
    have h2 : cacheGet st.cache (p.x, p.y) = some (rres c p.x p.y) :=
      hcoh (toHeapItem p)
        (hmem_st _ (List.mem_append_left _ (List.mem_map_of_mem toHeapItem hp)))
    rw [h1] at h2
    exact Option.some.inj h2
  have hres_len : ∀ p ∈ tp, p.res.length = c.n := by
    intro p hp
    rw [hres_eq p hp]
    exact rres_length c hqk _ _
  have hkey : ∀ it ∈ heap2, it.iv ∈ tp.map (fun p => (p.x, p.y)) →
      it.iv ∈ (tp.map halfKeys).flatten := by
    intro it hit hk
    rcases List.mem_map.mp hk with ⟨p, hp, hpk⟩
    have hpk2 : (toHeapItem p).iv = it.iv := hpk
    have hd : ivDisj (toHeapItem p).iv it.iv :=
      hAcross (toHeapItem p) (List.mem_map_of_mem toHeapItem hp) it hit
    rw [hpk2] at hd
    have hdeg : it.iv.1 = it.iv.2 := ivDisj_self it.iv hd
    have hxy : p.x = p.y := by
      have e1 : p.x = it.iv.1 := congrArg Prod.fst hpk
      have e2 : p.y = it.iv.2 := congrArg Prod.snd hpk
      rw [e1, e2]
      exact hdeg
    have hmid : (p.x + p.y) / 2 = p.y := by rw [hxy]; ring
    refine List.mem_flatten.mpr ⟨halfKeys p, List.mem_map_of_mem halfKeys hp, ?_⟩
    rw [← hpk]
    simp [halfKeys, hmid, hxy]
  have hheap : (processComps c { st with heap := heap2, cache := cache2 } tp).heap =
      heap2 ++ (tp.map (halfItems c)).flatten := processComps_heap c tp _
  have hres := processComps_result c hqk tp
    { st with heap := heap2, cache := cache2 } hlen hres_len
  have hcoh2 : ∀ it ∈ (processComps c { st with heap := heap2, cache := cache2 } tp).heap,
      cacheGet (processComps c { st with heap := heap2, cache := cache2 } tp).cache it.iv =
        some (rres c it.iv.1 it.iv.2) := by
    intro it hit
    rw [hheap] at hit
    have hC2 : cacheGet
        (processComps c { st with heap := heap2, cache := cache2 } tp).cache it.iv =
        if it.iv ∈ (tp.map halfKeys).flatten then some (rres c it.iv.1 it.iv.2)
        else cacheGet cache2 it.iv :=
      processComps_cacheGet c tp { st with heap := heap2, cache := cache2 } it.iv
    rw [hC2]
    rcases List.mem_append.mp hit with hold | hnew
    · by_cases hin : it.iv ∈ (tp.map halfKeys).flatten
      · rw [if_pos hin]
      · have hnk : it.iv ∉ tp.map (fun p => (p.x, p.y)) :=
          fun hk => hin (hkey it hold hk)
        rw [if_neg hin, hcache it.iv, if_neg hnk]
        exact hcoh it (hmem_st it (List.mem_append_right _ hold))
    · rcases List.mem_flatten.mp hnew with ⟨l, hl, hyl⟩
      rcases List.mem_map.mp hl with ⟨q, hq, hql⟩
      rw [← hql] at hyl
      have hk := (halfItems_mem_key c q it hyl).1
      have hin : it.iv ∈ (tp.map halfKeys).flatten :=
        List.mem_flatten.mpr ⟨halfKeys q, List.mem_map_of_mem halfKeys hq, hk⟩
      rw [if_pos hin]
  have hflat : ∀ i : ℕ,
      (((tp.map (halfItems c)).flatten).map
        fun it => (rres c it.iv.1 it.iv.2).getD i 0).sum =
        (tp.map fun p => (rres c p.x ((p.x + p.y) / 2)).getD i 0 +
          (rres c ((p.x + p.y) / 2) p.y).getD i 0).sum := by
    intro i
    rw [halfItems_flatten_sum c (fun it => (rres c it.iv.1 it.iv.2).getD i 0) tp]
  have herrflat : ((tp.map (halfItems c)).flatten.map HeapItem.err).sum =
      (tp.map fun p =>
        rerr c p.x ((p.x + p.y) / 2) + rerr c ((p.x + p.y) / 2) p.y).sum := by
    rw [halfItems_flatten_sum c HeapItem.err tp]
  have hstres : ∀ i : ℕ, i < c.n → st.result.getD i 0 =
      (st.heap.map fun it => (rres c it.iv.1 it.iv.2).getD i 0).sum := by
    intro i hi
    rw [hS, heapCachedSum_eq c st.cache st.heap hcoh]
    have hml : ∀ v ∈ st.heap.map (fun it => rres c it.iv.1 it.iv.2), v.length = c.n := by
      intro v hv
      rcases List.mem_map.mp hv with ⟨it2, _, hit2⟩
      rw [← hit2]
      exact rres_length c hqk _ _
    rw [vsum_getD c.n _ i hi hml, List.map_map]
    exact congrArg List.sum (List.map_congr_left fun it _ => rfl)
  have hsplit_res : ∀ i : ℕ, i < c.n → st.result.getD i 0 =
      (tp.map fun p => p.res.getD i 0).sum +
        (heap2.map fun it => (rres c it.iv.1 it.iv.2).getD i 0).sum := by
    intro i hi
    rw [hstres i hi,
      (hperm.map (fun it => (rres c it.iv.1 it.iv.2).getD i 0)).sum_eq,
      List.map_append, List.sum_append, List.map_map]
    have hmc : tp.map ((fun it => (rres c it.iv.1 it.iv.2).getD i 0) ∘ toHeapItem)
        = tp.map (fun p => p.res.getD i 0) :=
      List.map_congr_left fun p hp => by
        show (rres c p.x p.y).getD i 0 = p.res.getD i 0
        rw [hres_eq p hp]
    rw [hmc]
  have hsplit_err : st.abserr =
      (tp.map Popped.err).sum + (heap2.map HeapItem.err).sum := by
    rw [hE]
    show (st.heap.map HeapItem.err).sum = _
    rw [(hperm.map HeapItem.err).sum_eq, List.map_append, List.sum_append, List.map_map]
    have hmc : tp.map (HeapItem.err ∘ toHeapItem) = tp.map Popped.err :=
      List.map_congr_left fun p _ => rfl
    rw [hmc]
  have hSfinal : (processComps c { st with heap := heap2, cache := cache2 } tp).result =
      heapCachedSum c.n
        (processComps c { st with heap := heap2, cache := cache2 } tp).cache
        (processComps c { st with heap := heap2, cache := cache2 } tp).heap := by
    rw [heapCachedSum_eq c _ _ hcoh2, hheap]
    have hml2 : ∀ v ∈ (heap2 ++ (tp.map (halfItems c)).flatten).map
        (fun it => rres c it.iv.1 it.iv.2), v.length = c.n := by
      intro v hv
      rcases List.mem_map.mp hv with ⟨it2, _, hit2⟩
      rw [← hit2]
      exact rres_length c hqk _ _
    apply list_ext_getD
    · rw [hres.1, vsum_length c.n _ hml2]
    · intro i hi
      rw [hres.1] at hi
      rw [hres.2 i hi, vsum_getD c.n _ i hi hml2]
      simp only [List.map_append, List.sum_append, List.map_map, Function.comp_def]
      rw [hflat i]
      have hstM : ({ st with heap := heap2, cache := cache2 } : LoopSt).result
          = st.result := rfl
      rw [hstM, hsplit_res i hi, popped_res_split c i tp]
      ring
  have hEfinal : (processComps c { st with heap := heap2, cache := cache2 } tp).abserr =
      heapErrSum (processComps c { st with heap := heap2, cache := cache2 } tp).heap := by
    rw [processComps_abserr c tp, hheap]
    show st.abserr + _ = _
    rw [popped_err_split c tp, hsplit_err]
    show _ = ((heap2 ++ (tp.map (halfItems c)).flatten).map HeapItem.err).sum
    rw [List.map_append, List.sum_append, herrflat]
    ring
  have hPWfinal : List.Pairwise (fun i j => ivDisj i.iv j.iv)
      (processComps c { st with heap := heap2, cache := cache2 } tp).heap := by
    rw [hheap, List.pairwise_append]
    refine ⟨hPWh2, pairwise_halfItems c tp hPWtp, ?_⟩
    intro x hx y hy
    rcases List.mem_flatten.mp hy with ⟨l, hl, hyl⟩
    rcases List.mem_map.mp hl with ⟨q, hq, hql⟩
    rw [← hql] at hyl
    have hd : ivDisj (toHeapItem q).iv x.iv :=
      hAcross (toHeapItem q) (List.mem_map_of_mem toHeapItem hq) x hx
    have hb2i := halfItems_mem_bounds c q y hyl
    have h3 : ivDisj y.iv x.iv := ivDisj_mono (toHeapItem q).iv y.iv x.iv hb2i.1 hb2i.2 hd
    exact ivDisj_symm _ _ h3
  exact ⟨hres.1, hcoh2, hSfinal, hEfinal, hPWfinal⟩

/-- C1 (preservation): every `continue` and every successful `break` of the
sequential refinement loop keeps the invariant. -/
theorem GoodSeq_step (c : Ctx) (hqk : QkLen c) (st st2 : LoopSt) (hg : GoodSeq c st)
    (h : iterStepSeq c st = StepOut.cont st2 ∨ iterStepSeq c st = StepOut.brk st2) :
    GoodSeq c st2 := by
  have hmain : ∀ r, iterStepSeq c st = r →
      (r = StepOut.cont st2 ∨ r = StepOut.brk st2) → GoodSeq c st2 := by
    intro r hr hcase
    unfold iterStepSeq at hr
    cases hb : batchPopSeq st with
    | none =>
      rw [hb] at hr
      subst hr
      rcases hcase with h3 | h3 <;> exact absurd h3 (by simp)
    | some v =>
      rw [hb] at hr
      rcases v with ⟨tp, heap2, cache2, errSum⟩
      simp only at hr
      have hp := GoodSeq_processed c hqk st hg tp heap2 cache2 errSum hb
      split at hr
      · subst hr
        rcases hcase with h3 | h3
        · exact absurd h3 (by simp)
        · rw [StepOut.brk.injEq] at h3
          rw [← h3]
          exact ⟨hp.1, hp.2.1, hp.2.2.1, hp.2.2.2.1, hp.2.2.2.2⟩
      · split at hr
        · subst hr
          rcases hcase with h3 | h3 <;> exact absurd h3 (by simp)
        · subst hr
          rcases hcase with h3 | h3
          · rw [StepOut.cont.injEq] at h3
            rw [← h3]
            exact ⟨hp.1, hp.2.1, hp.2.2.1, hp.2.2.2.1, hp.2.2.2.2⟩
          · exact absurd h3 (by simp)
  rcases h with h | h
  · exact hmain _ h (Or.inl rfl)
  · exact hmain _ h (Or.inr rfl)

/-- C1: in the sequential engine, after every heap mutation the running
integral vector `S` equals the component-wise sum of the cached result
vectors of exactly the heap intervals and the running error `E` equals the
sum of their `abserr` values (the `GoodSeq` invariant, which also records
the cache coherence and heap disjointness this needs): the invariant holds
right after the initial-partition insertions, and it is preserved by every
pop-bisect-push round of the refinement loop, whether it continues or
breaks. -/
theorem c1_running_sums_invariant (c : Ctx) (hqk : QkLen c) :
    (∀ (a b : ℚ) (pts : List ℚ), GoodSeq c (initLoopState c a b pts)) ∧
    (∀ (st st2 : LoopSt), GoodSeq c st →
      (iterStepSeq c st = StepOut.cont st2 ∨ iterStepSeq c st = StepOut.brk st2) →
      GoodSeq c st2) :=
  ⟨fun a b pts => GoodSeq_init c hqk a b pts,
   fun st st2 hg h => GoodSeq_step c hqk st st2 hg h⟩

/-- C1 (witness): the invariant theorem applied at a concrete context, with
the rule-length hypothesis discharged, evaluated after the initial
partitioning of `(0, 1)` with no breakpoints. -/
theorem c1_running_sums_invariant_witness :
    GoodSeq ⟨qkOne, nv0, 1, 1, 10, 1, 1, false⟩
      (initLoopState ⟨qkOne, nv0, 1, 1, 10, 1, 1, false⟩ 0 1 []) :=
  (c1_running_sums_invariant ⟨qkOne, nv0, 1, 1, 10, 1, 1, false⟩
    (fun _ _ _ => rfl)).1 0 1 []

theorem sumWGK61_eval : sumWGK61 = 974252635285274216220829783176449 / 10 ^ 33 := by
  norm_num [sumWGK61, Finset.sum_range_succ, WGK61]

theorem sumWG61_eval : sumWG61 = 1000000000000000000000000000000001 / 10 ^ 33 := by
  norm_num [sumWG61, Finset.sum_range_succ, WG61]

theorem WGK61_30_eval : WGK61 30 = 51494729429451567558340433647099 / 10 ^ 33 := by
  norm_num [WGK61]

theorem XGK61_ne_zero : ∀ i, i < 30 → XGK61 i ≠ 0 := by
  intro i hi
  interval_cases i <;> norm_num [XGK61]



theorem qkCentr_c3 : qkCentr (-1 : ℝ) 1 = 0 := by unfold qkCentr; norm_num

theorem qkHlgth_c3 : qkHlgth (-1 : ℝ) 1 = 1 := by unfold qkHlgth; norm_num

theorem qkFv1_c3 : ∀ i, i < 30 → qkFv1 fC3 (-1) 1 i = fun _ => (1/2 : ℝ) := by
  intro i hi
  have hne : qkCentr (-1 : ℝ) 1 - qkHlgth (-1 : ℝ) 1 * ((XGK61 i : ℚ) : ℝ) ≠ 0 := by
    rw [qkCentr_c3, qkHlgth_c3]
    simp only [zero_sub, one_mul, neg_ne_zero, ne_eq, Rat.cast_eq_zero]
    exact XGK61_ne_zero i hi
  unfold qkFv1
  simp only [fC3, if_neg hne]

theorem qkFv2_c3 : ∀ i, i < 30 → qkFv2 fC3 (-1) 1 i = fun _ => (1/2 : ℝ) := by
  intro i hi
  have hne : qkCentr (-1 : ℝ) 1 + qkHlgth (-1 : ℝ) 1 * ((XGK61 i : ℚ) : ℝ) ≠ 0 := by
    rw [qkCentr_c3, qkHlgth_c3]
    simp only [zero_add, one_mul, ne_eq, Rat.cast_eq_zero]
    exact XGK61_ne_zero i hi
  unfold qkFv2
  simp only [fC3, if_neg hne]

theorem fC3_at_zero : fC3 0 = fun i => ((wVec i : ℚ) : ℝ) := by simp [fC3]

theorem WGK61_sum_split : (Finset.range 15).sum (fun j => WGK61 (2*j+1)) +
    (Finset.range 15).sum (fun j => WGK61 (2*j)) = sumWGK61 := by
  norm_num [sumWGK61, Finset.sum_range_succ, WGK61]

theorem qkResk_c3 : ∀ k : Fin 2,
    qkResk fC3 (-1) 1 k = ((WGK61 30 * wVec k + sumWGK61 : ℚ) : ℝ) := by
  intro k
  unfold qkResk
  have hodd : (Finset.range 15).sum (fun j => ((WGK61 (2*j+1) : ℚ) : ℝ) *
      (qkFv1 fC3 (-1) 1 (2*j+1) k + qkFv2 fC3 (-1) 1 (2*j+1) k)) =
      (Finset.range 15).sum (fun j => ((WGK61 (2*j+1) : ℚ) : ℝ)) := by
    apply Finset.sum_congr rfl
    intro j hj
    have hj30 : 2*j+1 < 30 := by have := Finset.mem_range.mp hj; omega
    rw [qkFv1_c3 _ hj30, qkFv2_c3 _ hj30]
    norm_num
  have heven : (Finset.range 15).sum (fun j => ((WGK61 (2*j) : ℚ) : ℝ) *
      (qkFv1 fC3 (-1) 1 (2*j) k + qkFv2 fC3 (-1) 1 (2*j) k)) =
      (Finset.range 15).sum (fun j => ((WGK61 (2*j) : ℚ) : ℝ)) := by
    apply Finset.sum_congr rfl
    intro j hj
    have hj30 : 2*j < 30 := by have := Finset.mem_range.mp hj; omega
    rw [qkFv1_c3 _ hj30, qkFv2_c3 _ hj30]
    norm_num
  rw [hodd, heven, qkCentr_c3]
  simp only [fC3_at_zero]
  push_cast [← WGK61_sum_split]
  ring

theorem qkResg_c3 : ∀ k : Fin 2, qkResg fC3 (-1) 1 k = ((sumWG61 : ℚ) : ℝ) := by
  intro k
  unfold qkResg
  have h1 : (Finset.range 15).sum (fun j => ((WG61 j : ℚ) : ℝ) *
      (qkFv1 fC3 (-1) 1 (2*j+1) k + qkFv2 fC3 (-1) 1 (2*j+1) k)) =
      (Finset.range 15).sum (fun j => ((WG61 j : ℚ) : ℝ)) := by
    apply Finset.sum_congr rfl
    intro j hj
    have hj30 : 2*j+1 < 30 := by have := Finset.mem_range.mp hj; omega
    rw [qkFv1_c3 _ hj30, qkFv2_c3 _ hj30]
    norm_num
  rw [h1, sumWG61, Rat.cast_sum]



theorem wTuned_cancel : WGK61 30 * wTuned + sumWGK61 - sumWG61 = 0 := by
  norm_num [wTuned, sumWGK61_eval, sumWG61_eval, WGK61_30_eval]

theorem d1C3_pos : 0 < d1C3 := by
  norm_num [d1C3, sumWGK61_eval, sumWG61_eval, WGK61_30_eval]

theorem reskhC3_one_le : reskhC3 1 ≤ 1 := by
  norm_num [reskhC3, sumWGK61_eval, WGK61_30_eval]

theorem half_le_reskhC3_one : 1/2 ≤ reskhC3 1 := by
  norm_num [reskhC3, sumWGK61_eval, WGK61_30_eval]

theorem reskhC3_wTuned_le : reskhC3 wTuned ≤ wTuned := by
  norm_num [reskhC3, wTuned, sumWGK61_eval, sumWG61_eval, WGK61_30_eval]

theorem half_le_reskhC3_wTuned : 1/2 ≤ reskhC3 wTuned := by
  norm_num [reskhC3, wTuned, sumWGK61_eval, sumWG61_eval, WGK61_30_eval]

theorem s0C3_pos : 0 < s0C3 := by
  norm_num [s0C3, reskhC3, sumWGK61_eval, WGK61_30_eval]

theorem s1C3_pos : 0 < s1C3 := by
  norm_num [s1C3, reskhC3, wTuned, sumWGK61_eval, sumWG61_eval, WGK61_30_eval]

theorem s0C3_le_200_d1C3 : s0C3 ≤ 200 * d1C3 := by
  norm_num [s0C3, d1C3, reskhC3, sumWGK61_eval, sumWG61_eval, WGK61_30_eval]

theorem sq_sum_le_200_d1C3_sq : s0C3 ^ 2 + s1C3 ^ 2 ≤ (200 * d1C3) ^ 2 := by
  norm_num [s0C3, s1C3, d1C3, reskhC3, wTuned, sumWGK61_eval, sumWG61_eval, WGK61_30_eval]



theorem WGK61_cast_sum : (Finset.range 30).sum (fun i => ((WGK61 i : ℚ) : ℝ)) =
    ((sumWGK61 : ℚ) : ℝ) := by
  rw [sumWGK61, Rat.cast_sum]

theorem qkReskh_c3 : ∀ k : Fin 2,
    qkReskh fC3 (-1) 1 k = ((reskhC3 (wVec k) : ℚ) : ℝ) := by
  intro k
  unfold qkReskh
  rw [qkResk_c3 k, reskhC3]
  push_cast
  ring

theorem qkResasc_c3 : ∀ k : Fin 2, qkResasc fC3 (-1) 1 k =
    ((WGK61 30 : ℚ) : ℝ) * |((wVec k : ℚ) : ℝ) - ((reskhC3 (wVec k) : ℚ) : ℝ)| +
      2 * ((sumWGK61 : ℚ) : ℝ) * |(1/2 : ℝ) - ((reskhC3 (wVec k) : ℚ) : ℝ)| := by
  intro k
  unfold qkResasc
  have hsum : (Finset.range 30).sum (fun i => ((WGK61 i : ℚ) : ℝ) *
      (|qkFv1 fC3 (-1) 1 i k - qkReskh fC3 (-1) 1 k| +
        |qkFv2 fC3 (-1) 1 i k - qkReskh fC3 (-1) 1 k|)) =
      (Finset.range 30).sum (fun i => ((WGK61 i : ℚ) : ℝ) *
        (2 * |(1/2 : ℝ) - ((reskhC3 (wVec k) : ℚ) : ℝ)|)) := by
    apply Finset.sum_congr rfl
    intro i hi
    have hi30 : i < 30 := Finset.mem_range.mp hi
    rw [qkFv1_c3 _ hi30, qkFv2_c3 _ hi30, qkReskh_c3 k]
    simp only []
    ring
  rw [hsum, qkReskh_c3 k, qkCentr_c3]
  simp only [fC3_at_zero]
  rw [← Finset.sum_mul, WGK61_cast_sum]
  ring

theorem qkErrNorm_c3 : qkErrNorm 2 fC3 (-1) 1 = ((d1C3 : ℚ) : ℝ) := by
  have hd1R : (0:ℝ) < ((d1C3 : ℚ) : ℝ) := by exact_mod_cast d1C3_pos
  unfold qkErrNorm
  rw [Fin.sum_univ_two, qkHlgth_c3, qkResk_c3 0, qkResk_c3 1, qkResg_c3 0, qkResg_c3 1]
  have hw0 : wVec 0 = 1 := rfl
  have hw1 : wVec 1 = wTuned := rfl
  rw [hw0, hw1]
  have hdiff0 : ((WGK61 30 * 1 + sumWGK61 : ℚ) : ℝ) - ((sumWG61 : ℚ) : ℝ) =
      ((d1C3 : ℚ) : ℝ) := by
    simp only [d1C3]
    push_cast
    ring
  have hdiff1 : ((WGK61 30 * wTuned + sumWGK61 : ℚ) : ℝ) - ((sumWG61 : ℚ) : ℝ) = 0 := by
    rw [← Rat.cast_sub, wTuned_cancel, Rat.cast_zero]
  rw [hdiff0, hdiff1]
  simp only [mul_one, zero_mul, abs_zero]
  rw [abs_of_pos hd1R]
  norm_num
  exact Real.sqrt_sq hd1R.le

theorem qkResasc_c3_zero : qkResasc fC3 (-1) 1 0 = ((s0C3 : ℚ) : ℝ) := by
  rw [qkResasc_c3 0]
  have hw0 : wVec 0 = 1 := rfl
  rw [hw0]
  have h1 : (0:ℝ) ≤ ((1 : ℚ) : ℝ) - ((reskhC3 1 : ℚ) : ℝ) := by
    have h1q : (0:ℚ) ≤ 1 - reskhC3 1 := by linarith [reskhC3_one_le]
    exact_mod_cast h1q
  have h2 : (0:ℝ) ≤ ((reskhC3 1 : ℚ) : ℝ) - 1/2 := by
    have h2q : (0:ℚ) ≤ reskhC3 1 - 1/2 := by linarith [half_le_reskhC3_one]
    have h2r := (Rat.cast_le (K := ℝ)).mpr h2q
    push_cast at h2r
    linarith
  rw [abs_of_nonneg h1, abs_sub_comm, abs_of_nonneg h2, s0C3]
  push_cast
  ring

theorem qkResasc_c3_one : qkResasc fC3 (-1) 1 1 = ((s1C3 : ℚ) : ℝ) := by
  rw [qkResasc_c3 1]
  have hw1 : wVec 1 = wTuned := rfl
  rw [hw1]
  have h1 : (0:ℝ) ≤ ((wTuned : ℚ) : ℝ) - ((reskhC3 wTuned : ℚ) : ℝ) := by
    have h1q : (0:ℚ) ≤ wTuned - reskhC3 wTuned := by linarith [reskhC3_wTuned_le]
    exact_mod_cast h1q
  have h2 : (0:ℝ) ≤ ((reskhC3 wTuned : ℚ) : ℝ) - 1/2 := by
    have h2q : (0:ℚ) ≤ reskhC3 wTuned - 1/2 := by linarith [half_le_reskhC3_wTuned]
    have h2r := (Rat.cast_le (K := ℝ)).mpr h2q
    push_cast at h2r
    linarith
  rw [abs_of_nonneg h1, abs_sub_comm, abs_of_nonneg h2, s1C3]
  push_cast
  ring

theorem qkResascScalar_c3 : qkResascScalar 2 fC3 (-1) 1 =
    Real.sqrt (((s0C3 ^ 2 + s1C3 ^ 2 : ℚ) : ℝ)) := by
  unfold qkResascScalar
  rw [Fin.sum_univ_two, qkResasc_c3_zero, qkResasc_c3_one, qkHlgth_c3]
  norm_num



theorem abserrPerComponent_c3 : abserrPerComponent 2 fC3 (-1) 1 = ((s0C3 : ℚ) : ℝ) := by
  have hd1R : (0:ℝ) < ((d1C3 : ℚ) : ℝ) := by exact_mod_cast d1C3_pos
  have hs0R : (0:ℝ) < ((s0C3 : ℚ) : ℝ) := by exact_mod_cast s0C3_pos
  unfold abserrPerComponent
  rw [Fin.sum_univ_two]
  simp only []
  rw [qkResk_c3 0, qkResk_c3 1, qkResg_c3 0, qkResg_c3 1, qkResasc_c3_zero, qkResasc_c3_one, qkHlgth_c3]
  have hw0 : wVec 0 = 1 := rfl
  have hw1 : wVec 1 = wTuned := rfl
  rw [hw0, hw1]
  have hdiff0 : ((WGK61 30 * 1 + sumWGK61 : ℚ) : ℝ) - ((sumWG61 : ℚ) : ℝ) =
      ((d1C3 : ℚ) : ℝ) := by
    simp only [d1C3]
    push_cast
    ring
  have hdiff1 : ((WGK61 30 * wTuned + sumWGK61 : ℚ) : ℝ) - ((sumWG61 : ℚ) : ℝ) = 0 := by
    rw [← Rat.cast_sub, wTuned_cancel, Rat.cast_zero]
  rw [hdiff0, hdiff1]
  simp only [mul_one, zero_mul, abs_zero, abs_one]
  rw [abs_of_pos hd1R]
  have hbase : (1:ℝ) ≤ 200 * ((d1C3 : ℚ) : ℝ) / ((s0C3 : ℚ) : ℝ) := by
    rw [one_le_div hs0R]
    exact_mod_cast s0C3_le_200_d1C3
  have hmin1 : (1:ℝ) ≤ (200 * ((d1C3 : ℚ) : ℝ) / ((s0C3 : ℚ) : ℝ)) ^ (3/2 : ℝ) :=
    Real.one_le_rpow hbase (by norm_num)
  rw [if_pos ⟨ne_of_gt hs0R, ne_of_gt hd1R⟩, min_eq_left hmin1, mul_one]
  rw [if_neg (fun h => h.2 rfl)]
  norm_num
  exact Real.sqrt_sq hs0R.le

theorem qk61_abserr_ge_c3 :
    Real.sqrt (((s0C3 ^ 2 + s1C3 ^ 2 : ℚ) : ℝ)) ≤ (qk61Integrate 2 fC3 (-1) 1).2.1 := by
  have hd1R : (0:ℝ) < ((d1C3 : ℚ) : ℝ) := by exact_mod_cast d1C3_pos
  have hXq : (0:ℚ) < s0C3 ^ 2 + s1C3 ^ 2 := by nlinarith [s0C3_pos, s1C3_pos]
  have hXpos : (0:ℝ) < ((s0C3 ^ 2 + s1C3 ^ 2 : ℚ) : ℝ) := by exact_mod_cast hXq
  have hsle : Real.sqrt (((s0C3 ^ 2 + s1C3 ^ 2 : ℚ) : ℝ)) ≤ 200 * ((d1C3 : ℚ) : ℝ) := by
    have hle : (((s0C3 ^ 2 + s1C3 ^ 2 : ℚ) : ℝ)) ≤ (200 * ((d1C3 : ℚ) : ℝ)) ^ 2 := by
      exact_mod_cast sq_sum_le_200_d1C3_sq
    calc Real.sqrt (((s0C3 ^ 2 + s1C3 ^ 2 : ℚ) : ℝ))
        ≤ Real.sqrt ((200 * ((d1C3 : ℚ) : ℝ)) ^ 2) := Real.sqrt_le_sqrt hle
      _ = 200 * ((d1C3 : ℚ) : ℝ) := Real.sqrt_sq (by linarith)
  have hbase : (1:ℝ) ≤ 200 * ((d1C3 : ℚ) : ℝ) / Real.sqrt (((s0C3 ^ 2 + s1C3 ^ 2 : ℚ) : ℝ)) := by
    rw [one_le_div (Real.sqrt_pos.mpr hXpos)]
    exact hsle
  have hmin1 : (1:ℝ) ≤ (200 * ((d1C3 : ℚ) : ℝ) /
      Real.sqrt (((s0C3 ^ 2 + s1C3 ^ 2 : ℚ) : ℝ))) ^ (3/2 : ℝ) :=
    Real.one_le_rpow hbase (by norm_num)
  unfold qk61Integrate
  simp only []
  rw [qkResascScalar_c3, qkErrNorm_c3]
  have hA : (if Real.sqrt (((s0C3 ^ 2 + s1C3 ^ 2 : ℚ) : ℝ)) ≠ 0 ∧ ((d1C3 : ℚ) : ℝ) ≠ 0 then
      Real.sqrt (((s0C3 ^ 2 + s1C3 ^ 2 : ℚ) : ℝ)) *
        min 1 ((200 * ((d1C3 : ℚ) : ℝ) /
          Real.sqrt (((s0C3 ^ 2 + s1C3 ^ 2 : ℚ) : ℝ))) ^ (3/2 : ℝ))
      else ((d1C3 : ℚ) : ℝ)) = Real.sqrt (((s0C3 ^ 2 + s1C3 ^ 2 : ℚ) : ℝ)) := by
    rw [if_pos ⟨ne_of_gt (Real.sqrt_pos.mpr hXpos), ne_of_gt hd1R⟩, min_eq_left hmin1, mul_one]
  rw [hA]
  split
  · exact le_max_left _ _
  · exact le_refl _

/-- C3 (counterexample): for the two-component integrand `fC3` on `(-1, 1)`
the scalar `abserr` returned by `Qk61VecNorm2::integrate` differs from the
Euclidean norm of the per-component smoothed errors: the second component has
raw error exactly `0` but positive `resasc`, so the single scalar-level
smoothing returns the norm of both `resasc` components while the
per-component reading returns only the first. -/
theorem c3_per_component_counterexample :
    (qk61Integrate 2 fC3 (-1) 1).2.1 ≠ abserrPerComponent 2 fC3 (-1) 1 := by
  have hs0R : (0:ℝ) < ((s0C3 : ℚ) : ℝ) := by exact_mod_cast s0C3_pos
  have h1 := qk61_abserr_ge_c3
  have h3 : ((s0C3 : ℚ) : ℝ) < Real.sqrt (((s0C3 ^ 2 + s1C3 ^ 2 : ℚ) : ℝ)) := by
    have h4 : ((s0C3 : ℚ) : ℝ) ^ 2 < (((s0C3 ^ 2 + s1C3 ^ 2 : ℚ) : ℝ)) := by
      have h4q : s0C3 ^ 2 < s0C3 ^ 2 + s1C3 ^ 2 := by nlinarith [s1C3_pos]
      exact_mod_cast h4q
    calc ((s0C3 : ℚ) : ℝ) = Real.sqrt (((s0C3 : ℚ) : ℝ) ^ 2) :=
          (Real.sqrt_sq hs0R.le).symm
      _ < Real.sqrt (((s0C3 ^ 2 + s1C3 ^ 2 : ℚ) : ℝ)) :=
          Real.sqrt_lt_sqrt (by positivity) h4
  intro hEq
  rw [abserrPerComponent_c3] at hEq
  rw [hEq] at h1
  linarith

/-- C3 (amended): the scalar `abserr` of `Qk61VecNorm2::integrate` is
obtained by taking Euclidean norms first (of the raw per-component errors
and of the per-component `resasc`), applying the Piessens smoothing once to
those two scalars, and flooring by the roundoff when `round_error > UFLOW` —
not by smoothing per component. -/
theorem c3_norm_then_smooth_amended (n : ℕ) (f : ℝ → Fin n → ℝ) (a b : ℝ) :
    (qk61Integrate n f a b).2.1 = abserrNormThenSmooth n f a b := rfl

end Quad
